import Mathlib

/-!
Verification of the SRT subtitle translator (`srt_translator.py`).

This file gives a shallow embedding of the translation pipeline of the
repository: the SRT codec (`parse_timestamp`, `format_timestamp`,
`parse_srt`, `generate_srt`), the batch planner (`create_batches`), the
tolerant response parser (`parse_translation_response`) and the retry /
fallback orchestration (`translate_batch_with_retry` and the per-batch
application loop of the `translate` command).

Python strings are modelled as `List Char`.  Fallible code (code that can
raise an uncaught exception) is modelled with `Option`.  Recursions are
written structurally (sometimes with an explicit fuel argument bounded by
the input length) so that every definition evaluates by kernel reduction.

Modelling notes, applying to the whole file:
* Python whitespace (`str.strip`, regex `\s`) is modelled by `pySpace`,
  the exact set of code points CPython treats as whitespace.
* Regex `\d` and `int()` digits are modelled as the ASCII digits `0`-`9`.
  CPython additionally accepts non-ASCII decimal digits and underscore
  group separators in `int()`; none of the claims involve those.
* Python `int` is unbounded, so numbers are `Nat`/`Int` without wrapping.
-/

namespace SrtTranslator

/-- Python whitespace: the code points for which CPython's `str.strip()`
strips and the `re` module's `\s` matches (Unicode mode, the default). -/
def pySpace (c : Char) : Bool :=
  (9 ≤ c.toNat && c.toNat ≤ 13) || c.toNat == 28 || c.toNat == 29 ||
  c.toNat == 30 || c.toNat == 31 || c.toNat == 32 || c.toNat == 133 ||
  c.toNat == 160 || c.toNat == 5760 || (8192 ≤ c.toNat && c.toNat ≤ 8202) ||
  c.toNat == 8232 || c.toNat == 8233 || c.toNat == 8239 ||
  c.toNat == 8287 || c.toNat == 12288

/-- Python `str.strip()` with no argument: drop whitespace from both ends. -/
def pyStrip (l : List Char) : List Char :=
  ((l.dropWhile pySpace).reverse.dropWhile pySpace).reverse

/-- Prepend a character to the first piece of a split result. -/
def consHead (c : Char) : List (List Char) → List (List Char)
  | [] => [[c]]
  | h :: t => (c :: h) :: t

/-- Python `str.split("\n")`: split at every newline, no collapsing
(so `"".split("\n") == [""]` and `"a\n".split("\n") == ["a", ""]`). -/
def splitOnNl : List Char → List (List Char)
  | [] => [[]]
  | c :: rest =>
    if c = '\n' then [] :: splitOnNl rest
    else consHead c (splitOnNl rest)

/-- Python `sep.join(parts)`. -/
def joinSep (sep : List Char) : List (List Char) → List Char
  | [] => []
  | [l] => l
  | l :: rest => l ++ sep ++ joinSep sep rest

/-- The character for decimal digit `d` (`chr(48 + d)`), as produced by
Python's decimal integer formatting for `d < 10`. -/
def digitChar (d : Nat) : Char := Char.ofNat (48 + d)

/-- Decimal digits of `n`, fuelled helper (fuel `> n` suffices). -/
def digitsF : Nat → Nat → List Char
  | 0, n => [digitChar n]
  | fuel + 1, n =>
    if n < 10 then [digitChar n]
    else digitsF fuel (n / 10) ++ [digitChar (n % 10)]

/-- Python `str(n)` for a non-negative integer `n`. -/
def natToDigits (n : Nat) : List Char := digitsF n n

/-- Numeric value of a digit character. -/
def dv (c : Char) : Nat := c.toNat - 48

/-- Value of a non-empty all-digit string (how `int()` reads the digits). -/
def digitsVal (l : List Char) : Nat := l.foldl (fun a c => a * 10 + dv c) 0

/-- Python `int(s)` for a decimal string: strips whitespace, accepts one
optional sign, then requires a non-empty run of digits; raises
`ValueError` (here `none`) otherwise. -/
def pyInt (l : List Char) : Option Int :=
  match pyStrip l with
  | [] => none
  | c :: r =>
    if c = '+' then
      if !r.isEmpty && r.all Char.isDigit then some ((digitsVal r : Nat) : Int) else none
    else if c = '-' then
      if !r.isEmpty && r.all Char.isDigit then some (-((digitsVal r : Nat) : Int)) else none
    else if (c :: r).all Char.isDigit then some ((digitsVal (c :: r) : Nat) : Int)
    else none

/-! ## Timestamps (`parse_timestamp`, `format_timestamp`) -/

/-- Model of `parse_timestamp` (srt_translator.py:123-137).  Replaces `.`
by `,`, strips, then matches the anchored-prefix regex
`(\d{2}):(\d{2}):(\d{2}),(\d{3})` (`re.match` ignores trailing text) and
returns `((H*3600)+(M*60)+S)*1000+mmm`; `none` models the `ValueError`. -/
def parse_timestamp (ts : List Char) : Option Nat :=
  match pyStrip (ts.map (fun c => if c = '.' then ',' else c)) with
  | h1 :: h2 :: c1 :: m1 :: m2 :: c2 :: s1 :: s2 :: c3 :: x1 :: x2 :: x3 :: _ =>
    if c1 = ':' ∧ c2 = ':' ∧ c3 = ',' ∧
       (h1.isDigit && h2.isDigit && m1.isDigit && m2.isDigit &&
        s1.isDigit && s2.isDigit && x1.isDigit && x2.isDigit && x3.isDigit) then
      some (((dv h1 * 10 + dv h2) * 3600 + (dv m1 * 10 + dv m2) * 60 +
             (dv s1 * 10 + dv s2)) * 1000 + (dv x1 * 100 + dv x2 * 10 + dv x3))
    else none
  | _ => none

/-- Python `f-string` field `{n:02d}`: decimal, zero-padded to width 2. -/
def pad2 (n : Nat) : List Char :=
  if n < 10 then '0' :: natToDigits n else natToDigits n

/-- Python `f-string` field `{n:03d}`: decimal, zero-padded to width 3. -/
def pad3 (n : Nat) : List Char :=
  if n < 10 then '0' :: '0' :: natToDigits n
  else if n < 100 then '0' :: natToDigits n
  else natToDigits n

/-- Model of `format_timestamp` (srt_translator.py:140-149). -/
def format_timestamp (ms : Nat) : List Char :=
  let total_seconds := ms / 1000
  let millis := ms % 1000
  let hours := total_seconds / 3600
  let minutes := total_seconds % 3600 / 60
  let seconds := total_seconds % 60
  pad2 hours ++ ':' :: pad2 minutes ++ ':' :: pad2 seconds ++ ',' :: pad3 millis

/-! ## Data model -/

/-- Model of the `Cue` dataclass (srt_translator.py:66-74).  Times are in
milliseconds; `index` is the sequence number parsed by `int()` (which
accepts a sign, hence `Int`). -/
structure Cue where
  index : Int
  start_time : Nat
  end_time : Nat
  text : List Char
  translated_text : Option (List Char) := none
deriving DecidableEq, Repr

/-- Model of the `TranslationBatch` dataclass (srt_translator.py:77-85). -/
structure TranslationBatch where
  cues : List Cue
  prev_context : List Cue
  next_context : List Cue
  start_index : Nat
  end_index : Nat
deriving DecidableEq, Repr

/-! ## SRT parser (`parse_srt`) -/

/-- Normalize `"\r\n"` to `"\n"`: Python `content.replace("\r\n", "\n")`,
scanning left to right over non-overlapping occurrences. -/
def normCRLF : List Char → List Char
  | [] => []
  | [c] => [c]
  | c :: d :: rest =>
    if c = '\r' ∧ d = '\n' then '\n' :: normCRLF rest
    else c :: normCRLF (d :: rest)

/-- The second replace, `content.replace("\r", "\n")`, on lone `"\r"`. -/
def mapCR (l : List Char) : List Char :=
  l.map (fun c => if c = '\r' then '\n' else c)

/-- The byte-order-marker character `"﻿"`. -/
def bomChar : Char := Char.ofNat 0xFEFF

/-- Drop a leading BOM: `if content.startswith("﻿"): content = content[1:]`. -/
def stripBom : List Char → List Char
  | [] => []
  | c :: rest => if c = bomChar then rest else c :: rest

/-- Index of the last `'\n'` in a list, if any. -/
def lastNlIdx : List Char → Option Nat
  | [] => none
  | c :: rest =>
    match lastNlIdx rest with
    | some k => some (k + 1)
    | none => if c = '\n' then some 0 else none

/-- Model of `re.split(r"\n\s*\n", content)`: scan left to right; at each
`'\n'` whose following maximal whitespace run contains another `'\n'`, the
(leftmost, greedy) match of `\n\s*\n` consumes that `'\n'` plus the run up
to and including the run's last `'\n'`, ending the current piece.  The
fuel argument (any value `≥` the list length) makes the recursion
structural; each step consumes at least one character. -/
def splitBlanksF : Nat → List Char → List (List Char)
  | 0, l => [l]
  | _ + 1, [] => [[]]
  | fuel + 1, c :: rest =>
    if c = '\n' then
      match lastNlIdx (rest.takeWhile pySpace) with
      | some k => [] :: splitBlanksF fuel (rest.drop (k + 1))
      | none => consHead '\n' (splitBlanksF fuel rest)
    else consHead c (splitBlanksF fuel rest)

/-- `re.split(r"\n\s*\n", l)` (srt_translator.py:172). -/
def splitBlanks (l : List Char) : List (List Char) := splitBlanksF l.length l

/-- The timing-line regex tail `\s*-->`: the greedy `\s*` must consume the
whole whitespace run (the next token starts with the non-whitespace
`'-'`), then the literal `-->`. -/
def arrowTail (l : List Char) : Option (List Char) :=
  match l.dropWhile pySpace with
  | [] => none
  | a :: rest1 =>
    if a = '-' then
      match rest1 with
      | [] => none
      | b :: rest2 =>
        if b = '-' then
          match rest2 with
          | [] => none
          | c :: rest3 => if c = '>' then some rest3 else none
        else none
    else none

/-- Capture of `\s*(.+?)(?:\s|$)` on the text after `-->`: greedy `\s*`
takes the maximal whitespace run, then the lazy `(.+?)` takes the shortest
non-empty prefix whose successor is whitespace or the end.  If everything
after the arrow is whitespace the engine backtracks `\s*` one character so
that `(.+?)` can match that last whitespace character. -/
def matchGroup2 : List Char → Option (List Char)
  | [] => none
  | c :: cs =>
    let t1 := (c :: cs).dropWhile pySpace
    match t1 with
    | [] => some [List.getLastD cs c]
    | d :: ds => some ((d :: ds).takeWhile (fun x => !pySpace x))

/-- Scanner for `re.match(r"(.+?)\s*-->\s*(.+?)(?:\s|$)", line)`: the lazy
`(.+?)` tries group-1 lengths in increasing order (starting at 1); `acc`
holds the group-1 candidate read so far.  Structural in the remaining
input. -/
def matchTimingGo (acc : List Char) : List Char → Option (List Char × List Char)
  | [] => none
  | c :: rest =>
    match arrowTail rest with
    | some afterArrow =>
      match matchGroup2 afterArrow with
      | some g2 => some (acc ++ [c], g2)
      | none => matchTimingGo (acc ++ [c]) rest
    | none => matchTimingGo (acc ++ [c]) rest

/-- The timestamp-line match of srt_translator.py:187. -/
def matchTimingLine (l : List Char) : Option (List Char × List Char) :=
  matchTimingGo [] l

/-- One iteration of the block loop of `parse_srt`
(srt_translator.py:174-209): skip whitespace-only blocks, skip blocks of
fewer than three lines, parse the index line with `int()`, match the
timing line, parse both timestamps, and take the remaining lines as text;
`none` models every `continue`/caught-exception path. -/
def parseBlock (block : List Char) : Option Cue :=
  if (pyStrip block).isEmpty then none
  else if (splitOnNl (pyStrip block)).length < 3 then none
  else
    match pyInt (pyStrip ((splitOnNl (pyStrip block)).headD [])) with
    | none => none
    | some index =>
      match matchTimingLine (pyStrip (((splitOnNl (pyStrip block)).drop 1).headD [])) with
      | none => none
      | some (g1, g2) =>
        match parse_timestamp g1, parse_timestamp g2 with
        | some st, some en =>
          some { index := index, start_time := st, end_time := en,
                 text := pyStrip (joinSep ['\n'] ((splitOnNl (pyStrip block)).drop 2)) }
        | _, _ => none

/-- The normalization prefix of `parse_srt` (srt_translator.py:164-172):
newline normalization, BOM removal, and `content.strip()`. -/
def prepContent (content : List Char) : List Char :=
  pyStrip (stripBom (mapCR (normCRLF content)))

/-- Model of `parse_srt` (srt_translator.py:152-211): split the prepared
content into blocks and accumulate the successfully parsed cues in
document order. -/
def parse_srt (content : List Char) : List Cue :=
  (splitBlanks (prepContent content)).foldl
    (fun acc b =>
      match parseBlock b with
      | some cue => acc ++ [cue]
      | none => acc) []

/-! ## SRT generator (`generate_srt`) -/

/-- The text chosen for a cue on output
(`cue.translated_text if use_translated and cue.translated_text else cue.text`,
srt_translator.py:237-239); an empty translation is falsy in Python. -/
def chooseText (use_translated : Bool) (c : Cue) : List Char :=
  match c.translated_text with
  | some t => if use_translated && !t.isEmpty then t else c.text
  | none => c.text

/-- The timing line `f"{format_timestamp(start)} --> {format_timestamp(end)}"`. -/
def tsLine (c : Cue) : List Char :=
  format_timestamp c.start_time ++ ' ' :: '-' :: '-' :: '>' :: ' ' ::
    format_timestamp c.end_time

/-- The flat line list built by the loop of `generate_srt`
(srt_translator.py:227-243), with cues enumerated from `i`. -/
def genLines (use_translated : Bool) : Nat → List Cue → List (List Char)
  | _, [] => []
  | i, c :: rest =>
    natToDigits i :: tsLine c :: chooseText use_translated c :: [] ::
      genLines use_translated (i + 1) rest

/-- Model of `generate_srt` (srt_translator.py:214-247): join the lines
with `"\r\n"` and prepend the BOM. -/
def generate_srt (cues : List Cue) (use_translated : Bool := true) : List Char :=
  bomChar :: joinSep ['\r', '\n'] (genLines use_translated 1 cues)

/-! ## Batch planner (`create_batches`) -/

/-- Python slice `l[a:b]` for non-negative bounds (clamping is implicit in
`drop`/`take`). -/
def pySlice (l : List Cue) (a b : Nat) : List Cue := (l.drop a).take (b - a)

/-- One iteration of the loop `for i in range(0, len(cues), batch_size)`
(srt_translator.py:400-418).  `prev_start = max(0, i - context_size)` is
the truncated subtraction `i - cs`; `next_end = min(len(cues), i +
batch_size + context_size)`. -/
def mkBatch (cues : List Cue) (bs cs i : Nat) : TranslationBatch :=
  let batch_cues := pySlice cues i (i + bs)
  { cues := batch_cues
    prev_context := pySlice cues (i - cs) i
    next_context := pySlice cues (i + bs) (min cues.length (i + bs + cs))
    start_index := i
    end_index := i + batch_cues.length - 1 }

/-- The loop of `create_batches`, fuelled (each iteration advances `i` by
`bs ≥ 1` and consumes one unit of fuel, so any fuel `≥ cues.length - i`
suffices). -/
def createBatchesGo (cues : List Cue) (bs cs : Nat) : Nat → Nat → List TranslationBatch
  | 0, _ => []
  | fuel + 1, i =>
    if i < cues.length then
      mkBatch cues bs cs i :: createBatchesGo cues bs cs fuel (i + bs)
    else []

/-- Model of `create_batches` (srt_translator.py:382-420).  For
`batch_size = 0` Python's `range(0, n, 0)` raises `ValueError`; the claims
only concern positive `batch_size`, and we return `[]` in that case. -/
def create_batches (cues : List Cue) (batch_size context_size : Nat) :
    List TranslationBatch :=
  if batch_size = 0 then []
  else createBatchesGo cues batch_size context_size cues.length 0

/-! ## Response parser (`parse_translation_response`) -/

/-- An apostrophe character, written by code point to keep source plain. -/
def squote : Char := Char.ofNat 39

/-- The quote-stripping step of srt_translator.py:511-514: if the text
starts and ends with `"` (or starts and ends with a single quote), remove
the first and last character (`text[1:-1]`; a one-character quote becomes
the empty string, exactly as in Python). -/
def stripQuotes (t : List Char) : List Char :=
  if t.head? == some '"' && t.getLast? == some '"' then (t.drop 1).dropLast
  else if t.head? == some squote && t.getLast? == some squote then (t.drop 1).dropLast
  else t

/-- Model of `re.match(r"^\s*(\d+)\s*[.:\)]\s*(.+)$", line.strip())`
(srt_translator.py:502-507), returning the captured number and the raw
group 2.  The greedy `\d+` must be maximal (a shorter prefix is followed
by a digit, which the separator class cannot match), and both inner `\s*`
must consume their full whitespace runs.  After `line.strip()` the input
cannot end in whitespace, so `(.+)$` captures exactly the rest of the line
when it is non-empty. -/
def matchNumberedLine (line : List Char) : Option (Nat × List Char) :=
  let s := (pyStrip line).dropWhile pySpace
  let digits := s.takeWhile Char.isDigit
  if digits.isEmpty then none
  else
    match (s.dropWhile Char.isDigit).dropWhile pySpace with
    | [] => none
    | c :: rest =>
      if c = '.' ∨ c = ':' ∨ c = ')' then
        match rest.dropWhile pySpace with
        | [] => none
        | d :: ds => some (digitsVal digits, d :: ds)
      else none

/-- Python list assignment `l[i] = v` with Python index semantics: a
negative index counts from the end; out of range raises `IndexError`
(modelled by `none`). -/
def pyListSet (l : List (List Char)) (i : Int) (v : List Char) :
    Option (List (List Char)) :=
  let n : Int := l.length
  let j := if i < 0 then i + n else i
  if 0 ≤ j ∧ j < n then some (l.set j.toNat v) else none

/-- One iteration of the line loop of `parse_translation_response`
(srt_translator.py:504-523): unmatched lines are ignored; a matched line
is quote-stripped, placeholders are appended while `len < num - 1`, then
the text is appended (if `len < num`) or assigned at `num - 1`. -/
def respStep (acc : List (List Char)) (line : List Char) :
    Option (List (List Char)) :=
  match matchNumberedLine line with
  | none => some acc
  | some (num, raw) =>
    let text := stripQuotes (pyStrip raw)
    let acc2 := acc ++ List.replicate (num - 1 - acc.length) []
    if acc2.length < num then some (acc2 ++ [text])
    else pyListSet acc2 ((num : Int) - 1) text

/-- Fold `respStep` over the lines; `none` propagates an uncaught
`IndexError`. -/
def respFold (acc : List (List Char)) : List (List Char) → Option (List (List Char))
  | [] => some acc
  | l :: rest =>
    match respStep acc l with
    | none => none
    | some acc2 => respFold acc2 rest

/-- Model of `parse_translation_response` (srt_translator.py:485-535):
process `response.strip().split("\n")` line by line, then right-pad with
empty strings and truncate to exactly `expected_count` entries (the count
mismatch is only warned about).  `none` models the uncaught `IndexError`
raised by `translations[num - 1]` when a matched line carries number 0 and
the list is empty. -/
def parse_translation_response (response : List Char) (expected_count : Nat) :
    Option (List (List Char)) :=
  match respFold [] (splitOnNl (pyStrip response)) with
  | none => none
  | some ts =>
    some ((ts ++ List.replicate (expected_count - ts.length) []).take expected_count)

/-! ## Retry and fallback orchestration -/

/-- `MAX_RETRIES` (srt_translator.py:42). -/
def MAX_RETRIES : Nat := 3

/-- `RETRY_BACKOFF` (srt_translator.py:43), in seconds. -/
def RETRY_BACKOFF : List Nat := [1, 2, 4]

/-- The delay slept before retry attempt `attempt` (`attempt ≥ 1`):
`RETRY_BACKOFF[min(attempt - 1, len(RETRY_BACKOFF) - 1)]`
(srt_translator.py:711). -/
def backoffWait (attempt : Nat) : Nat :=
  RETRY_BACKOFF.getD (min (attempt - 1) (RETRY_BACKOFF.length - 1)) 0

/-- The retry loop of `translate_batch_with_retry` (srt_translator.py:
709-724).  The provider call `translate_with_chatgpt` is the external
collaborator, represented by `resp : Nat → Option (List Char)` giving the
text returned on each attempt (`none` = call failed / returned `None`; an
empty string is falsy in Python and also counts as failure at the
`if response:` check).  Returns the parsed translations (`none` inside the
first component models an uncaught parser exception), the number of
provider attempts made, and the list of backoff delays slept, in order.
Structural in the number of remaining attempts. -/
def retryGo (resp : Nat → Option (List Char)) (expected_count : Nat) :
    Nat → Nat → List Nat → Option (List (List Char)) × Nat × List Nat
  | 0, attempt, waits => (some (List.replicate expected_count []), attempt, waits)
  | remaining + 1, attempt, waits =>
    let waits := if 0 < attempt then waits ++ [backoffWait attempt] else waits
    match resp attempt with
    | some r =>
      if r.isEmpty then retryGo resp expected_count remaining (attempt + 1) waits
      else (parse_translation_response r expected_count, attempt + 1, waits)
    | none => retryGo resp expected_count remaining (attempt + 1) waits

/-- Model of `translate_batch_with_retry` (srt_translator.py:688-724) with
`expected_count = len(batch.cues)` supplied by the caller. -/
def translate_batch_with_retry (resp : Nat → Option (List Char))
    (expected_count : Nat) : Option (List (List Char)) × Nat × List Nat :=
  retryGo resp expected_count MAX_RETRIES 0 []

/-- The application loop of the `translate` command
(srt_translator.py:869-874): for each translation in order, a non-empty
entry is written to `translated_text`, an empty entry falls back to the
cue's own source text and increments the failure counter (the counter
counts cues, one per empty entry).  Indexing `batch.cues[i]` out of range
would raise `IndexError` (`none`); the parser contract keeps both lists
the same length. -/
def applyBatchResult : List Cue → List (List Char) → Nat → Option (List Cue × Nat)
  | cs, [], failed => some (cs, failed)
  | [], _ :: _, _ => none
  | c :: cs, t :: ts, failed =>
    let c2 := if t.isEmpty then { c with translated_text := some c.text }
              else { c with translated_text := some t }
    let failed2 := if t.isEmpty then failed + 1 else failed
    match applyBatchResult cs ts failed2 with
    | none => none
    | some (l, f) => some (c2 :: l, f)

/-- The batch loop of the `translate` command (srt_translator.py:863-877):
process every batch strictly in sequence, threading the failure counter;
each batch is paired with its own provider behaviour.  `none` propagates
an uncaught exception; a batch whose retries are exhausted does NOT stop
the loop. -/
def runTranslateLoop :
    List (List Cue × (Nat → Option (List Char))) → Nat →
    Option (List (List Cue) × Nat)
  | [], failed => some ([], failed)
  | (cs, resp) :: rest, failed =>
    match (translate_batch_with_retry resp cs.length).1 with
    | none => none
    | some ts =>
      match applyBatchResult cs ts failed with
      | none => none
      | some (cs2, failed2) =>
        match runTranslateLoop rest failed2 with
        | none => none
        | some (l, f) => some (cs2 :: l, f)


/-- Whether a line's matched leading number (if any) is at least 1. -/
def lineNumPos (l : List Char) : Bool :=
  match matchNumberedLine l with
  | some p => 1 ≤ p.1
  | none => true

/-- All numbered lines that the response parser matches carry a leading
number of at least 1. -/
def matchedNumsPos (response : List Char) : Prop :=
  ∀ l ∈ splitOnNl (pyStrip response), lineNumPos l = true

/-! ## Definitions supporting the round-trip analysis (C1) -/

/-- The block a cue contributes to the generated document (index line,
timing line, text), without the trailing blank-line separator. -/
def blockOf (i : Nat) (c : Cue) : List Char :=
  natToDigits i ++ '\n' :: (tsLine c ++ '\n' :: c.text)

/-- The generated blocks, cues enumerated from `i`. -/
def genBlocks : Nat → List Cue → List (List Char)
  | _, [] => []
  | i, c :: rest => blockOf i c :: genBlocks (i + 1) rest

/-- The cue sequence re-read from its own serialization: same times and
text, renumbered consecutively from `i`. -/
def renumberFrom : Nat → List Cue → List Cue
  | _, [] => []
  | i, c :: rest =>
    { index := (i : Int), start_time := c.start_time, end_time := c.end_time,
      text := c.text, translated_text := none } :: renumberFrom (i + 1) rest

/-- Conditions on a cue's source text under which the SRT wire format can
carry it faithfully: non-empty, stripped (no leading/trailing whitespace),
no carriage return, and no whitespace-only line. -/
def goodText (t : List Char) : Prop :=
  t ≠ [] ∧ pyStrip t = t ∧ '\r' ∉ t ∧
    ∀ ln ∈ splitOnNl t, ∃ c ∈ ln, pySpace c = false

instance : DecidablePred goodText := fun t => by
  unfold goodText
  infer_instance

/-- No `'\n'` of the list is followed by a whitespace run containing
another `'\n'` — such a list is a single piece for `re.split(r"\n\s*\n")`:
after every `'\n'` some non-whitespace character appears before the next
`'\n'`. -/
def goodSeg (t : List Char) : Prop :=
  ∀ u v, t = u ++ '\n' :: v →
    ∃ w d z, v = w ++ d :: z ∧ (∀ x ∈ w, pySpace x = true) ∧
      pySpace d = false ∧ '\n' ∉ w

/-! ## Concrete example inputs used by witnesses and counterexamples -/

/-- A sample cue for concrete instantiations. -/
def exCue (k : Nat) : Cue :=
  { index := (k : Int) + 1, start_time := 1000 * k, end_time := 1000 * k + 900,
    text := ['c'], translated_text := none }

/-- A sample cue list of length `n`. -/
def exCues (n : Nat) : List Cue := (List.range n).map exCue

/-! ## Basic lemmas: decimal digits -/

lemma digitsF_small (fuel n : Nat) (h : n < 10) : digitsF fuel n = [digitChar n] := by
  cases fuel <;> simp [digitsF, h]

lemma digitsF_fuel (f m : Nat) (h : m ≤ f) : digitsF f m = natToDigits m := by
  induction m using Nat.strong_induction_on generalizing f with
  | _ m ih =>
    by_cases hm : m < 10
    · rw [digitsF_small _ _ hm, natToDigits, digitsF_small _ _ hm]
    · obtain ⟨f', rfl⟩ : ∃ f', f = f' + 1 := ⟨f - 1, by omega⟩
      obtain ⟨g, hg⟩ : ∃ g, m = g + 1 := ⟨m - 1, by omega⟩
      rw [digitsF, if_neg hm]
      conv_rhs => rw [natToDigits, hg, digitsF, ← hg, if_neg hm]
      rw [ih (m / 10) (by omega) f' (by omega), ih (m / 10) (by omega) g (by omega)]

lemma natToDigits_ge10 (n : Nat) (h : 10 ≤ n) :
    natToDigits n = natToDigits (n / 10) ++ [digitChar (n % 10)] := by
  obtain ⟨g, rfl⟩ : ∃ g, n = g + 1 := ⟨n - 1, by omega⟩
  rw [natToDigits, digitsF, if_neg (by omega), digitsF_fuel _ _ (by omega)]

lemma natToDigits_one (n : Nat) (h : n < 10) : natToDigits n = [digitChar n] :=
  digitsF_small n n h

lemma natToDigits_two (n : Nat) (h10 : 10 ≤ n) (h : n < 100) :
    natToDigits n = [digitChar (n / 10), digitChar (n % 10)] := by
  rw [natToDigits_ge10 n h10, natToDigits_one _ (by omega)]
  rfl

lemma digitsVal_append (l : List Char) (c : Char) :
    digitsVal (l ++ [c]) = digitsVal l * 10 + dv c := by
  simp [digitsVal, List.foldl_append]

lemma dv_digitChar (d : Nat) (h : d < 10) : dv (digitChar d) = d := by
  interval_cases d <;> decide

lemma digitsVal_natToDigits (n : Nat) : digitsVal (natToDigits n) = n := by
  induction n using Nat.strong_induction_on with
  | _ n ih =>
    by_cases hn : n < 10
    · rw [natToDigits_one n hn]
      simp [digitsVal, dv_digitChar _ hn]
    · rw [natToDigits_ge10 n (by omega), digitsVal_append,
          ih (n / 10) (by omega), dv_digitChar _ (by omega)]
      omega

lemma isDigit_digitChar (d : Nat) (h : d < 10) : (digitChar d).isDigit = true := by
  interval_cases d <;> decide

lemma natToDigits_all_digit (n : Nat) : ∀ c ∈ natToDigits n, c.isDigit = true := by
  induction n using Nat.strong_induction_on with
  | _ n ih =>
    by_cases hn : n < 10
    · rw [natToDigits_one n hn]
      simp only [List.mem_singleton]
      rintro c rfl
      exact isDigit_digitChar _ hn
    · rw [natToDigits_ge10 n (by omega)]
      intro c hc
      rcases List.mem_append.1 hc with h1 | h1
      · exact ih (n / 10) (by omega) c h1
      · simp only [List.mem_singleton] at h1
        subst h1
        exact isDigit_digitChar _ (by omega)

lemma natToDigits_ne_nil (n : Nat) : natToDigits n ≠ [] := by
  by_cases hn : n < 10
  · rw [natToDigits_one n hn]; simp
  · rw [natToDigits_ge10 n (by omega)]; simp

/-! ## Basic lemmas: character classes -/

lemma isDigit_toNat (c : Char) (h : c.isDigit = true) :
    48 ≤ c.toNat ∧ c.toNat ≤ 57 := by
  simpa [Char.isDigit] using h

lemma pySpace_of_digit (c : Char) (h : c.isDigit = true) : pySpace c = false := by
  obtain ⟨h1, h2⟩ := isDigit_toNat c h
  simp only [pySpace]
  simp only [Bool.or_eq_false_iff, Bool.and_eq_false_iff, beq_eq_false_iff_ne, ne_eq,
    decide_eq_false_iff_not, not_le]
  omega

lemma digit_ne (c : Char) (h : c.isDigit = true) (d : Char) (hd : d.toNat < 48 ∨ 57 < d.toNat) :
    c ≠ d := by
  obtain ⟨h1, h2⟩ := isDigit_toNat c h
  intro he
  subst he
  omega

lemma pad2_eq (n : Nat) (h : n < 100) :
    pad2 n = [digitChar (n / 10), digitChar (n % 10)] := by
  by_cases h10 : n < 10
  · rw [pad2, if_pos h10, natToDigits_one n h10]
    have e1 : n / 10 = 0 := by omega
    have e2 : n % 10 = n := by omega
    rw [e1, e2, show digitChar 0 = '0' from by decide]
  · rw [pad2, if_neg h10, natToDigits_two n (by omega) h]

lemma pad3_eq (n : Nat) (h : n < 1000) :
    pad3 n = [digitChar (n / 100), digitChar (n / 10 % 10), digitChar (n % 10)] := by
  by_cases h10 : n < 10
  · rw [pad3, if_pos h10, natToDigits_one n h10]
    have e1 : n / 100 = 0 := by omega
    have e2 : n / 10 % 10 = 0 := by omega
    have e3 : n % 10 = n := by omega
    rw [e1, e2, e3, show digitChar 0 = '0' from by decide]
  · by_cases h100 : n < 100
    · rw [pad3, if_neg h10, if_pos h100, natToDigits_two n (by omega) h100]
      have e1 : n / 100 = 0 := by omega
      have e2 : n / 10 % 10 = n / 10 := by omega
      rw [e1, e2, show digitChar 0 = '0' from by decide]
    · rw [pad3, if_neg h10, if_neg h100, natToDigits_ge10 n (by omega),
          natToDigits_two (n / 10) (by omega) (by omega), Nat.div_div_eq_div_mul]
      norm_num


/-! ## Basic lemmas: strip / map helpers -/

lemma dropWhile_eq_self_of_all (p : Char → Bool) (l : List Char)
    (h : ∀ c ∈ l, p c = false) : l.dropWhile p = l := by
  cases l with
  | nil => rfl
  | cons c rest => simp [List.dropWhile_cons, h c (by simp)]

lemma pyStrip_eq_self_of_all (l : List Char) (h : ∀ c ∈ l, pySpace c = false) :
    pyStrip l = l := by
  unfold pyStrip
  rw [dropWhile_eq_self_of_all _ _ h,
      dropWhile_eq_self_of_all _ _ (fun c hc => h c (List.mem_reverse.1 hc)),
      List.reverse_reverse]

lemma map_dot_eq_self (l : List Char) (h : ∀ c ∈ l, c ≠ '.') :
    l.map (fun c => if c = '.' then ',' else c) = l := by
  induction l with
  | nil => rfl
  | cons c rest ih =>
    simp only [List.map_cons, if_neg (h c (by simp))]
    rw [ih (fun c hc => h c (by simp [hc]))]

lemma parse_ts_shape (H M S X : Nat) (hH : H < 100) (hM : M < 100) (hS : S < 100)
    (hX : X < 1000) :
    parse_timestamp (pad2 H ++ ':' :: pad2 M ++ ':' :: pad2 S ++ ',' :: pad3 X) =
      some ((H * 3600 + M * 60 + S) * 1000 + X) := by
  have hdig : ∀ d, d < 10 → (digitChar d).isDigit = true := isDigit_digitChar
  rw [pad2_eq H hH, pad2_eq M hM, pad2_eq S hS, pad3_eq X hX]
  simp only [List.cons_append, List.nil_append]
  have hall : ∀ c ∈ (digitChar (H/10) :: digitChar (H%10) :: ':' ::
      digitChar (M/10) :: digitChar (M%10) :: ':' ::
      digitChar (S/10) :: digitChar (S%10) :: ',' ::
      digitChar (X/100) :: digitChar (X/10%10) :: digitChar (X%10) :: ([] : List Char)),
      (c.isDigit = true ∨ c = ':' ∨ c = ',') := by
    intro c hc
    simp only [List.mem_cons, List.not_mem_nil, or_false] at hc
    rcases hc with rfl|rfl|rfl|rfl|rfl|rfl|rfl|rfl|rfl|rfl|rfl|rfl <;>
      first
        | exact Or.inl (hdig _ (by omega))
        | exact Or.inr (Or.inl rfl)
        | exact Or.inr (Or.inr rfl)
  unfold parse_timestamp
  rw [map_dot_eq_self _ ?hdot, pyStrip_eq_self_of_all _ ?hws]
  case hdot =>
    intro c hc
    rcases hall c hc with h1 | h1 | h1
    · exact digit_ne c h1 '.' (by left; decide)
    · subst h1; decide
    · subst h1; decide
  case hws =>
    intro c hc
    rcases hall c hc with h1 | h1 | h1
    · exact pySpace_of_digit c h1
    · subst h1; decide
    · subst h1; decide
  split
  next h1 h2 c1 m1 m2 c2 s1 s2 c3 x1 x2 x3 tail heq =>
    injection heq with e1 heq; injection heq with e2 heq; injection heq with e3 heq
    injection heq with e4 heq; injection heq with e5 heq; injection heq with e6 heq
    injection heq with e7 heq; injection heq with e8 heq; injection heq with e9 heq
    injection heq with e10 heq; injection heq with e11 heq; injection heq with e12 heq
    subst e1; subst e2; subst e3; subst e4; subst e5; subst e6; subst e7; subst e8
    subst e9; subst e10; subst e11; subst e12
    rw [if_pos]
    swap
    · refine ⟨rfl, rfl, rfl, ?_⟩
      simp only [Bool.and_eq_true]
      exact ⟨⟨⟨⟨⟨⟨⟨⟨hdig _ (by omega), hdig _ (by omega)⟩, hdig _ (by omega)⟩,
        hdig _ (by omega)⟩, hdig _ (by omega)⟩, hdig _ (by omega)⟩,
        hdig _ (by omega)⟩, hdig _ (by omega)⟩, hdig _ (by omega)⟩
    simp only [Option.some.injEq]
    rw [dv_digitChar _ (by omega), dv_digitChar _ (by omega), dv_digitChar _ (by omega),
        dv_digitChar _ (by omega), dv_digitChar _ (by omega), dv_digitChar _ (by omega),
        dv_digitChar _ (by omega), dv_digitChar _ (by omega), dv_digitChar _ (by omega)]
    omega
  next hne =>
    exfalso
    exact hne _ _ _ _ _ _ _ _ _ _ _ _ _ rfl


lemma parse_format (ms : Nat) (h : ms < 360000000) :
    parse_timestamp (format_timestamp ms) = some ms := by
  simp only [format_timestamp]
  rw [parse_ts_shape _ _ _ _ (by omega) (by omega) (by omega) (by omega)]
  congr 1
  omega

/-- C5: `parse_timestamp` converts a `HH:MM:SS,mmm` timestamp (comma or
period as fractional separator) exactly to `((H*3600)+(M*60)+S)*1000+mmm`
milliseconds, and `format_timestamp` is its inverse (for any millisecond
value whose hour field fits the two-digit form, i.e. below 100 hours);
`00:01:02,345` converts to `62345` ms and back, and `00:00:00,000`
converts to `0` and back. -/
theorem c5_timestamp_conversion :
    (∀ H M S X : Nat, H < 100 → M < 100 → S < 100 → X < 1000 →
      parse_timestamp (pad2 H ++ ':' :: pad2 M ++ ':' :: pad2 S ++ ',' :: pad3 X) =
        some ((H * 3600 + M * 60 + S) * 1000 + X)) ∧
    (∀ ms : Nat, ms < 360000000 → parse_timestamp (format_timestamp ms) = some ms) ∧
    parse_timestamp "00:01:02,345".data = some 62345 ∧
    parse_timestamp "00:01:02.345".data = some 62345 ∧
    format_timestamp 62345 = "00:01:02,345".data ∧
    parse_timestamp "00:00:00,000".data = some 0 ∧
    format_timestamp 0 = "00:00:00,000".data :=
  ⟨parse_ts_shape, parse_format, by decide, by decide, by decide, by decide, by decide⟩

/-- Witness for C5 at a concrete input. -/
theorem c5_timestamp_conversion_witness :
    parse_timestamp (format_timestamp 7262345) = some 7262345 :=
  c5_timestamp_conversion.2.1 7262345 (by decide)


lemma createBatchesGo_nil (cues : List Cue) (bs cs fuel i : Nat) (h : cues.length ≤ i) :
    createBatchesGo cues bs cs fuel i = [] := by
  cases fuel with
  | zero => rfl
  | succ f => simp [createBatchesGo, Nat.not_lt.2 h]

lemma createBatchesGo_join (cues : List Cue) (bs cs : Nat) (hbs : 0 < bs) :
    ∀ fuel i, cues.length ≤ i + fuel →
      ((createBatchesGo cues bs cs fuel i).map TranslationBatch.cues).flatten = cues.drop i := by
  intro fuel
  induction fuel with
  | zero =>
    intro i h
    simp only [createBatchesGo]
    simp [List.drop_eq_nil_of_le (by omega : cues.length ≤ i)]
  | succ f ih =>
    intro i h
    by_cases hi : i < cues.length
    · simp only [createBatchesGo]
      rw [if_pos hi]
      simp only [List.map_cons, List.flatten_cons, mkBatch, pySlice]
      rw [ih (i + bs) (by omega)]
      have e1 : i + bs - i = bs := by omega
      rw [e1]
      rw [show cues.drop (i + bs) = (cues.drop i).drop bs by rw [List.drop_drop]]
      exact List.take_append_drop bs (cues.drop i)
    · rw [createBatchesGo_nil cues bs cs _ i (by omega)]
      simp [List.drop_eq_nil_of_le (by omega : cues.length ≤ i)]

lemma createBatchesGo_sizes (cues : List Cue) (bs cs : Nat) :
    ∀ fuel i, ∀ b ∈ createBatchesGo cues bs cs fuel i, b.cues.length ≤ bs := by
  intro fuel
  induction fuel with
  | zero => intro i b hb; simp only [createBatchesGo] at hb; simp at hb
  | succ f ih =>
    intro i b hb
    simp only [createBatchesGo] at hb
    by_cases hi : i < cues.length
    · rw [if_pos hi] at hb
      rcases List.mem_cons.1 hb with rfl | hb2
      · simp only [mkBatch, pySlice]
        have := List.length_take (i + bs - i) (cues.drop i)
        simp only [List.length_take]
        omega
      · exact ih (i + bs) b hb2
    · rw [if_neg hi] at hb; simp at hb

lemma createBatchesGo_ne_nil (cues : List Cue) (bs cs fuel i : Nat)
    (h : createBatchesGo cues bs cs fuel i ≠ []) : i < cues.length := by
  by_contra hc
  exact h (createBatchesGo_nil cues bs cs fuel i (by omega))

lemma createBatchesGo_full (cues : List Cue) (bs cs : Nat) (hbs : 0 < bs) :
    ∀ fuel i k b, (createBatchesGo cues bs cs fuel i)[k]? = some b →
      k + 1 < (createBatchesGo cues bs cs fuel i).length → b.cues.length = bs := by
  intro fuel
  induction fuel with
  | zero => intro i k b hb hk; simp only [createBatchesGo] at hk; simp at hk
  | succ f ih =>
    intro i k b hb hk
    simp only [createBatchesGo] at hb hk
    by_cases hi : i < cues.length
    · rw [if_pos hi] at hb hk
      cases k with
      | zero =>
        simp only [List.getElem?_cons_zero, Option.some.injEq] at hb
        subst hb
        simp only [List.length_cons] at hk
        have htail : createBatchesGo cues bs cs f (i + bs) ≠ [] := by
          intro he
          rw [he] at hk
          simp at hk
        have hlt : i + bs < cues.length := createBatchesGo_ne_nil cues bs cs f (i + bs) htail
        simp only [mkBatch, pySlice, List.length_take, List.length_drop]
        omega
      | succ k2 =>
        simp only [List.getElem?_cons_succ] at hb
        simp only [List.length_cons] at hk
        exact ih (i + bs) k2 b hb (by omega)
    · rw [if_neg hi] at hk; simp at hk

/-- C2 (theorem): with positive `batch_size` the batches' `cues` slices
concatenate, in order, to the original cue sequence (so as contiguous
slices they are pairwise disjoint and no cue is repeated or skipped);
every batch holds at most `batch_size` cues and every non-final batch
holds exactly `batch_size`; the empty sequence yields no batches. -/
theorem c2_batch_coverage (cues : List Cue) (bs cs : Nat) (hbs : 0 < bs) :
    ((create_batches cues bs cs).map TranslationBatch.cues).flatten = cues ∧
    (∀ b ∈ create_batches cues bs cs, b.cues.length ≤ bs) ∧
    (∀ k (hk : k + 1 < (create_batches cues bs cs).length),
      ((create_batches cues bs cs).get ⟨k, by omega⟩).cues.length = bs) ∧
    (cues = [] → create_batches cues bs cs = []) := by
  have hbs0 : bs ≠ 0 := by omega
  unfold create_batches
  rw [if_neg hbs0]
  refine ⟨?_, ?_, ?_, ?_⟩
  · rw [createBatchesGo_join cues bs cs hbs cues.length 0 (by omega)]
    rfl
  · exact createBatchesGo_sizes cues bs cs cues.length 0
  · intro k hk
    refine createBatchesGo_full cues bs cs hbs cues.length 0 k _ ?_ hk
    rw [List.get_eq_getElem, List.getElem?_eq_getElem (by omega)]
  · intro he
    subst he
    rfl

lemma drop_decomp (l : List Cue) (a p : Nat) :
    l.drop a = (l.drop a).take p ++ l.drop (a + p) := by
  conv_lhs => rw [← List.take_append_drop p (l.drop a)]
  rw [List.drop_drop]

lemma mem_createBatchesGo (cues : List Cue) (bs cs : Nat) :
    ∀ fuel i b, b ∈ createBatchesGo cues bs cs fuel i →
      ∃ j, j < cues.length ∧ b = mkBatch cues bs cs j := by
  intro fuel
  induction fuel with
  | zero => intro i b hb; simp only [createBatchesGo] at hb; simp at hb
  | succ f ih =>
    intro i b hb
    simp only [createBatchesGo] at hb
    by_cases hi : i < cues.length
    · rw [if_pos hi] at hb
      rcases List.mem_cons.1 hb with rfl | hb2
      · exact ⟨i, hi, rfl⟩
      · exact ih (i + bs) b hb2
    · rw [if_neg hi] at hb; simp at hb

lemma mkBatch_decomp (cues : List Cue) (bs cs j : Nat) :
    ∃ pre post,
      cues = pre ++ (mkBatch cues bs cs j).prev_context ++ (mkBatch cues bs cs j).cues ++
        (mkBatch cues bs cs j).next_context ++ post := by
  simp only [mkBatch, pySlice]
  set m := min cues.length (j + bs + cs) with hm
  refine ⟨cues.take (j - cs), cues.drop ((j + bs) + (m - (j + bs))), ?_⟩
  have h1 : cues = cues.take (j - cs) ++ cues.drop (j - cs) :=
    (List.take_append_drop _ _).symm
  have h2 : cues.drop (j - cs) =
      (cues.drop (j - cs)).take (j - (j - cs)) ++ cues.drop j := by
    have := drop_decomp cues (j - cs) (j - (j - cs))
    rw [show j - cs + (j - (j - cs)) = j by omega] at this
    exact this
  have h3 : cues.drop j = (cues.drop j).take (j + bs - j) ++ cues.drop (j + bs) := by
    have := drop_decomp cues j (j + bs - j)
    rw [show j + (j + bs - j) = j + bs by omega] at this
    exact this
  have h4 : cues.drop (j + bs) =
      (cues.drop (j + bs)).take (m - (j + bs)) ++ cues.drop ((j + bs) + (m - (j + bs))) :=
    drop_decomp cues (j + bs) (m - (j + bs))
  conv_lhs => rw [h1, h2, h3, h4]
  simp [List.append_assoc]

lemma mkBatch_ctx_len (cues : List Cue) (bs cs j : Nat) :
    (mkBatch cues bs cs j).prev_context.length ≤ cs ∧
    (mkBatch cues bs cs j).next_context.length ≤ cs := by
  simp only [mkBatch, pySlice, List.length_take, List.length_drop]
  omega

/-- C7 (theorem): every planned batch carries at most `context_size` cues
of leading and trailing context, drawn immediately before / after its own
`cues` slice (witnessed by the decomposition of the full sequence, which
also shows the context never overlaps the batch's own items), and the
batch starting the sequence has empty leading context. -/
theorem c7_context_windows (cues : List Cue) (bs cs : Nat) (hbs : 0 < bs)
    (_hcs : 0 < cs) :
    ∀ b ∈ create_batches cues bs cs,
      b.prev_context.length ≤ cs ∧
      b.next_context.length ≤ cs ∧
      (∃ pre post,
        cues = pre ++ b.prev_context ++ b.cues ++ b.next_context ++ post) ∧
      (b.start_index = 0 → b.prev_context = []) := by
  intro b hb
  unfold create_batches at hb
  rw [if_neg (by omega : ¬ bs = 0)] at hb
  obtain ⟨j, _hj, rfl⟩ := mem_createBatchesGo cues bs cs cues.length 0 b hb
  refine ⟨(mkBatch_ctx_len cues bs cs j).1, (mkBatch_ctx_len cues bs cs j).2,
    mkBatch_decomp cues bs cs j, ?_⟩
  intro h0
  simp only [mkBatch] at h0 ⊢
  subst h0
  simp [pySlice]


/-- Witness for C2 at a concrete input. -/
theorem c2_batch_coverage_witness :
    ((create_batches (exCues 3) 2 1).map TranslationBatch.cues).flatten = exCues 3 ∧
    create_batches ([] : List Cue) 2 1 = [] :=
  ⟨(c2_batch_coverage (exCues 3) 2 1 (by decide)).1,
   (c2_batch_coverage [] 2 1 (by decide)).2.2.2 rfl⟩

/-- Witness for C7: for a 5-cue sequence with `batch_size = 3` and
`context_size = 2`, the first batch has empty leading context and at most
two cues of trailing context. -/
theorem c7_context_windows_witness :
    (mkBatch (exCues 5) 3 2 0).prev_context = [] ∧
    (mkBatch (exCues 5) 3 2 0).next_context.length ≤ 2 :=
  ⟨(c7_context_windows (exCues 5) 3 2 (by decide) (by decide) _ (by decide)).2.2.2 (by decide),
   (c7_context_windows (exCues 5) 3 2 (by decide) (by decide) _ (by decide)).2.1⟩


/-! ## Response parser claims -/


lemma respStep_some (acc : List (List Char)) (line : List Char)
    (h : lineNumPos line = true) : ∃ acc2, respStep acc line = some acc2 := by
  unfold respStep
  cases hm : matchNumberedLine line with
  | none => exact ⟨acc, rfl⟩
  | some p =>
    obtain ⟨num, raw⟩ := p
    have hnum : 1 ≤ num := by
      unfold lineNumPos at h
      rw [hm] at h
      simpa using h
    simp only []
    by_cases hlt : (acc ++ List.replicate (num - 1 - acc.length) []).length < num
    · rw [if_pos hlt]
      exact ⟨_, rfl⟩
    · rw [if_neg hlt]
      simp only [pyListSet]
      rw [List.length_append, List.length_replicate] at hlt
      rw [if_neg (by omega : ¬ ((num : Int) - 1 < 0))]
      rw [if_pos]
      · exact ⟨_, rfl⟩
      · constructor
        · omega
        · simp only [List.length_append, List.length_replicate]
          push_cast
          omega

lemma respFold_some (lines : List (List Char)) :
    ∀ acc, (∀ l ∈ lines, lineNumPos l = true) →
      ∃ out, respFold acc lines = some out := by
  induction lines with
  | nil => intro acc _; exact ⟨acc, rfl⟩
  | cons l rest ih =>
    intro acc h
    obtain ⟨acc2, h2⟩ := respStep_some acc l (h l (by simp))
    unfold respFold
    rw [h2]
    exact ih acc2 (fun x hx => h x (by simp [hx]))

lemma parse_response_total (response : List Char) (ec : Nat)
    (h : matchedNumsPos response) :
    ∃ out, parse_translation_response response ec = some out ∧ out.length = ec := by
  obtain ⟨ts, hts⟩ := respFold_some (splitOnNl (pyStrip response)) [] h
  unfold parse_translation_response
  rw [hts]
  refine ⟨_, rfl, ?_⟩
  simp only [List.length_take, List.length_append, List.length_replicate]
  omega

/-- C3 (amended theorem): whenever every matched numbered line carries a
number of at least 1, the parser returns exactly `expected_count` strings
(out-of-order and gapped numbering handled by placement at `number - 1`,
padding and truncation); the response `"1. foo\n3. bar"` with
`expected_count = 3` parses to `["foo", "", "bar"]`. -/
theorem c3_response_shape :
    (∀ (response : List Char) (ec : Nat), matchedNumsPos response →
      ∃ out, parse_translation_response response ec = some out ∧ out.length = ec) ∧
    parse_translation_response "1. foo\n3. bar".data 3 =
      some ["foo".data, [], "bar".data] :=
  ⟨parse_response_total, by decide⟩

/-- C3 (counterexample): as stated over EVERY response text the claim
fails: on `"0. hello"` the function raises an uncaught `IndexError`
(`translations[-1]` on an empty list) instead of returning a list. -/
theorem c3_counterexample : parse_translation_response "0. hello".data 3 = none := by
  decide

/-- Witness for C3 at a concrete input. -/
theorem c3_response_shape_witness :
    ∃ out, parse_translation_response "2) b\n1: a".data 2 = some out ∧ out.length = 2 :=
  c3_response_shape.1 "2) b\n1: a".data 2 (by unfold matchedNumsPos; decide)

/-- C9: `parse_translation_response` is not total: a response whose first
matched line carries number 0 (e.g. `"0. hello"`) raises an uncaught
`IndexError` for every `expected_count`; with the precondition that every
matched number is at least 1 the parser always returns `expected_count`
strings. -/
theorem c9_parser_partiality :
    (∀ ec : Nat, parse_translation_response "0. hello".data ec = none) ∧
    (∀ (response : List Char) (ec : Nat), matchedNumsPos response →
      ∃ out, parse_translation_response response ec = some out ∧ out.length = ec) := by
  constructor
  · intro ec
    have h : respFold [] (splitOnNl (pyStrip "0. hello".data)) = none := by decide
    unfold parse_translation_response
    rw [h]
  · exact parse_response_total

/-- Witness for C9 at a concrete input. -/
theorem c9_parser_partiality_witness :
    ∃ out, parse_translation_response "1. ok".data 1 = some out ∧ out.length = 1 :=
  c9_parser_partiality.2 "1. ok".data 1 (by unfold matchedNumsPos; decide)

/-- C8: a matched pair of surrounding quote characters (double or single)
around the captured text is stripped, one outer pair only; the matched
line `2. "hello"` yields the translation `hello` with no quotes. -/
lemma getLast?_cons_concat (a b : Char) (l : List Char) :
    (a :: (l ++ [b])).getLast? = some b := by
  rw [show a :: (l ++ [b]) = (a :: l) ++ [b] by simp]
  exact List.getLast?_concat _

theorem c8_quote_stripping :
    (∀ t : List Char, stripQuotes ('"' :: t ++ ['"']) = t) ∧
    (∀ t : List Char, stripQuotes (squote :: t ++ [squote]) = t) ∧
    parse_translation_response "2. \"hello\"".data 2 = some [[], "hello".data] := by
  refine ⟨?_, ?_, by decide⟩
  · intro t
    simp [stripQuotes, getLast?_cons_concat]
  · intro t
    have hne : (squote == '"') = false := by decide
    simp [stripQuotes, getLast?_cons_concat, hne]

lemma respStep_overwrite (acc : List (List Char)) (line : List Char) (num : Nat)
    (raw : List Char) (hm : matchNumberedLine line = some (num, raw)) (h1 : 1 ≤ num)
    (hle : num ≤ acc.length) :
    respStep acc line = some (acc.set (num - 1) (stripQuotes (pyStrip raw))) := by
  unfold respStep
  rw [hm]
  simp only []
  rw [show num - 1 - acc.length = 0 by omega, List.replicate_zero, List.append_nil]
  rw [if_neg (by omega : ¬ acc.length < num)]
  simp only [pyListSet]
  rw [if_neg (by omega : ¬ ((num : Int) - 1 < 0))]
  rw [if_pos ⟨by omega, by simp only [Int.lt_iff_add_one_le]; omega⟩]
  rw [show ((num : Int) - 1).toNat = num - 1 by omega]

/-- C10: a later matched line carrying an already-filled number `k`
(`1 ≤ k ≤` current length) overwrites position `k - 1` with its own
captured text and leaves every other position unchanged; in particular
`"1. a
2. b
1. c"` with `expected_count = 2` parses to `["c", "b"]`. -/
theorem c10_duplicate_overwrite :
    (∀ (acc : List (List Char)) (line : List Char) (num : Nat) (raw : List Char),
      matchNumberedLine line = some (num, raw) → 1 ≤ num → num ≤ acc.length →
      respStep acc line = some (acc.set (num - 1) (stripQuotes (pyStrip raw))) ∧
      ∀ out, respStep acc line = some out →
        out[num - 1]? = some (stripQuotes (pyStrip raw)) ∧
        ∀ j, j ≠ num - 1 → out[j]? = acc[j]?) ∧
    parse_translation_response "1. a
2. b
1. c".data 2 = some [['c'], ['b']] := by
  refine ⟨?_, by decide⟩
  intro acc line num raw hm h1 hle
  have hstep := respStep_overwrite acc line num raw hm h1 hle
  refine ⟨hstep, ?_⟩
  intro out hout
  rw [hstep] at hout
  injection hout with hout
  subst hout
  refine ⟨List.getElem?_set_self (by omega), ?_⟩
  intro j hj
  exact List.getElem?_set_ne (Ne.symm hj)

/-- Witness for C10 at a concrete input. -/
theorem c10_duplicate_overwrite_witness :
    respStep [['a'], ['b']] "1. c".data = some [['c'], ['b']] :=
  ((c10_duplicate_overwrite.1 [['a'], ['b']] "1. c".data 1 ['c'] (by decide)
    (by decide) (by decide)).1).trans (by decide)


/-! ## Retry / fallback claims -/

lemma retry_all_fail (resp : Nat → Option (List Char)) (ec : Nat)
    (h : ∀ a, resp a = none) :
    translate_batch_with_retry resp ec = (some (List.replicate ec []), MAX_RETRIES, [1, 2]) := by
  simp only [translate_batch_with_retry, MAX_RETRIES]
  show retryGo resp ec (2 + 1) 0 [] = _
  rw [retryGo]
  simp only [h 0, Nat.lt_irrefl, if_neg (by omega : ¬ (0:Nat) < 0)]
  show retryGo resp ec (1 + 1) 1 [] = _
  rw [retryGo]
  simp only [h 1, if_pos (by omega : (0:Nat) < 1)]
  show retryGo resp ec (0 + 1) 2 ([] ++ [backoffWait 1]) = _
  rw [retryGo]
  simp only [h 2, if_pos (by omega : (0:Nat) < 2)]
  show retryGo resp ec 0 3 (([] ++ [backoffWait 1]) ++ [backoffWait 2]) = _
  rw [retryGo]
  have e1 : backoffWait 1 = 1 := by decide
  have e2 : backoffWait 2 = 2 := by decide
  rw [e1, e2]
  rfl

lemma applyBatch_fallback (cs : List Cue) :
    ∀ f, applyBatchResult cs (List.replicate cs.length []) f =
      some (cs.map (fun c => { c with translated_text := some c.text }), f + cs.length) := by
  induction cs with
  | nil => intro f; rfl
  | cons c rest ih =>
    intro f
    simp only [List.length_cons, List.replicate_succ, applyBatchResult, List.isEmpty_nil,
      eq_self_iff_true, if_true]
    rw [ih (f + 1)]
    simp only [List.map_cons, Option.some.injEq, Prod.mk.injEq]
    refine ⟨?_, by omega⟩
    simp

lemma retry_first_success (resp : Nat → Option (List Char)) (ec : Nat) (r : List Char)
    (h0 : resp 0 = some r) (hne : r ≠ []) :
    translate_batch_with_retry resp ec = (parse_translation_response r ec, 1, []) := by
  simp only [translate_batch_with_retry, MAX_RETRIES]
  show retryGo resp ec (2 + 1) 0 [] = _
  rw [retryGo]
  simp only [h0, if_neg (by omega : ¬ (0:Nat) < 0)]
  rw [if_neg (by simpa [List.isEmpty_iff] using hne)]

/-- C4: when every provider invocation fails, the orchestrator makes
exactly `MAX_RETRIES` attempts for the batch, sleeping the backoff
schedule values `[1, 2]` (increasing, drawn from `RETRY_BACKOFF`, capped
at its last entry) before the retries; after exhaustion every cue of the
batch gets `translated_text = source text`, the failure counter is
incremented for the batch (by its cue count — the code counts failed
cues), and the loop continues with the remaining batches; a retry happens
only on provider failure — any non-empty provider response is parsed and
returned after that single attempt, regardless of the parsed count. -/
theorem c4_retry_fallback :
    (∀ (resp : Nat → Option (List Char)) (ec : Nat), (∀ a, resp a = none) →
      translate_batch_with_retry resp ec =
        (some (List.replicate ec []), MAX_RETRIES, [1, 2])) ∧
    (∀ (cs : List Cue) (f : Nat),
      applyBatchResult cs (List.replicate cs.length []) f =
        some (cs.map (fun c => { c with translated_text := some c.text }), f + cs.length)) ∧
    (∀ (cs : List Cue) (resp : Nat → Option (List Char))
        (rest : List (List Cue × (Nat → Option (List Char)))) (f : Nat),
      (∀ a, resp a = none) →
      runTranslateLoop ((cs, resp) :: rest) f =
        (runTranslateLoop rest (f + cs.length)).map
          (fun p => (cs.map (fun c => { c with translated_text := some c.text }) :: p.1, p.2))) ∧
    (∀ (resp : Nat → Option (List Char)) (ec : Nat) (r : List Char),
      resp 0 = some r → r ≠ [] →
      translate_batch_with_retry resp ec = (parse_translation_response r ec, 1, [])) := by
  refine ⟨retry_all_fail, fun cs f => applyBatch_fallback cs f, ?_, retry_first_success⟩
  intro cs resp rest f h
  rw [runTranslateLoop, retry_all_fail resp cs.length h]
  show (match applyBatchResult cs (List.replicate cs.length []) f with
    | none => none
    | some (cs2, failed2) =>
      match runTranslateLoop rest failed2 with
      | none => none
      | some (l, f2) => some (cs2 :: l, f2)) = _
  rw [applyBatch_fallback cs f]
  show (match runTranslateLoop rest (f + cs.length) with
    | none => none
    | some (l, f2) =>
      some ((cs.map fun (c : Cue) => { c with translated_text := some c.text }) :: l, f2)) = _
  cases hr : runTranslateLoop rest (f + cs.length) with
  | none => rfl
  | some p => cases p; rfl

/-- Witness for C4 at a concrete input. -/
theorem c4_retry_fallback_witness :
    translate_batch_with_retry (fun _ => none) 2 =
      (some [[], []], MAX_RETRIES, [1, 2]) ∧
    runTranslateLoop [([exCue 0], fun _ => none)] 0 =
      some ([[{ exCue 0 with translated_text := some (exCue 0).text }]], 1) := by
  constructor
  · exact (c4_retry_fallback.1 (fun _ => none) 2 (fun _ => rfl)).trans (by decide)
  · rw [c4_retry_fallback.2.2.1 [exCue 0] (fun _ => none) [] 0 (fun _ => rfl)]
    decide


/-! ## Lenient block skipping (C6) -/

lemma foldl_parse_filterMap (bs : List (List Char)) :
    ∀ acc : List Cue,
      bs.foldl (fun acc b => match parseBlock b with
        | some cue => acc ++ [cue]
        | none => acc) acc = acc ++ bs.filterMap parseBlock := by
  induction bs with
  | nil => intro acc; simp
  | cons b rest ih =>
    intro acc
    simp only [List.foldl_cons, List.filterMap_cons]
    cases hb : parseBlock b with
    | none => rw [ih acc]
    | some cue => rw [ih (acc ++ [cue]), List.append_assoc]; rfl

lemma parseBlock_short (b : List Char) (h : (splitOnNl (pyStrip b)).length < 3) :
    parseBlock b = none := by
  unfold parseBlock
  by_cases he : (pyStrip b).isEmpty
  · rw [if_pos he]
  · rw [if_neg he, if_pos h]

lemma parseBlock_badTiming (b : List Char) (h3 : 3 ≤ (splitOnNl (pyStrip b)).length)
    (ht : matchTimingLine (pyStrip (((splitOnNl (pyStrip b)).drop 1).headD [])) = none) :
    parseBlock b = none := by
  unfold parseBlock
  by_cases he : (pyStrip b).isEmpty
  · rw [if_pos he]
  · rw [if_neg he, if_neg (by omega)]
    cases hi : pyInt (pyStrip ((splitOnNl (pyStrip b)).headD [])) with
    | none => rfl
    | some idx => rw [ht]

/-- C6: malformed blocks are skipped, never fatal: `parse_srt` is the
per-block accumulation of `parseBlock` over the blank-line split (so a bad
block only drops its own cue), any block with fewer than three lines is
skipped, any block whose timing line does not match the `<start> -->
<end>` pattern is skipped, and a document with bad blocks between good
ones still yields the good cues in document order with their original
sequence numbers (7 and 9 below) preserved. -/
theorem c6_lenient_block_skipping :
    (∀ content : List Char,
      parse_srt content = (splitBlanks (prepContent content)).filterMap parseBlock) ∧
    (∀ b : List Char, (splitOnNl (pyStrip b)).length < 3 → parseBlock b = none) ∧
    (∀ b : List Char, 3 ≤ (splitOnNl (pyStrip b)).length →
      matchTimingLine (pyStrip (((splitOnNl (pyStrip b)).drop 1).headD [])) = none →
      parseBlock b = none) ∧
    parse_srt ("7\n00:00:01,000 --> 00:00:02,000\nHello\n\nbad\n\n8\nnotatimestamp\nText\n\n9\n00:00:03,000 --> 00:00:04,500\nWorld").data =
      [{ index := 7, start_time := 1000, end_time := 2000, text := "Hello".data,
         translated_text := none },
       { index := 9, start_time := 3000, end_time := 4500, text := "World".data,
         translated_text := none }] := by
  refine ⟨?_, parseBlock_short, parseBlock_badTiming, by decide⟩
  intro content
  unfold parse_srt
  rw [foldl_parse_filterMap]
  rfl

/-- Witness for C6 at concrete malformed blocks. -/
theorem c6_lenient_block_skipping_witness :
    parseBlock "xy".data = none ∧ parseBlock "1\nbadtiming\nText".data = none :=
  ⟨c6_lenient_block_skipping.2.1 "xy".data (by decide),
   c6_lenient_block_skipping.2.2.1 "1\nbadtiming\nText".data (by decide) (by decide)⟩


/-! ## Round-trip analysis (C1) -/

/-! ### Newline normalization lemmas -/

lemma normCRLF_no_cr (l : List Char) (h : '\r' ∉ l) : normCRLF l = l := by
  induction l using normCRLF.induct with
  | case1 => rfl
  | case2 c => rfl
  | case3 c d rest hcd ih =>
    exfalso
    exact h (by simp [hcd.1])
  | case4 c d rest hcd ih =>
    rw [normCRLF]
    rw [if_neg hcd, ih (fun hm => h (by simp at hm ⊢; tauto))]

lemma normCRLF_cons_ne_cr (c : Char) (l : List Char) (hc : c ≠ '\r') :
    normCRLF (c :: l) = c :: normCRLF l := by
  cases l with
  | nil => rfl
  | cons d rest =>
    rw [normCRLF, if_neg (fun hcd => hc hcd.1)]

lemma normCRLF_append_crlf (l m : List Char) (h : '\r' ∉ l) :
    normCRLF (l ++ '\r' :: '\n' :: m) = l ++ '\n' :: normCRLF m := by
  induction l with
  | nil =>
    show normCRLF ('\r' :: '\n' :: m) = '\n' :: normCRLF m
    rw [normCRLF, if_pos ⟨rfl, rfl⟩]
  | cons c l' ih =>
    have hc : c ≠ '\r' := fun he => h (by simp [he])
    show normCRLF (c :: (l' ++ '\r' :: '\n' :: m)) = c :: (l' ++ '\n' :: normCRLF m)
    rw [normCRLF_cons_ne_cr c _ hc, ih (fun hm => h (by simp [hm]))]

lemma joinSep_cons_cons (sep : List Char) (a b : List Char) (rest : List (List Char)) :
    joinSep sep (a :: b :: rest) = a ++ sep ++ joinSep sep (b :: rest) := by
  rfl

lemma normCRLF_join (lines : List (List Char)) (h : ∀ l ∈ lines, '\r' ∉ l) :
    normCRLF (joinSep ['\r', '\n'] lines) = joinSep ['\n'] lines := by
  induction lines with
  | nil => rfl
  | cons l rest ih =>
    cases rest with
    | nil => exact normCRLF_no_cr l (h l (by simp))
    | cons b rs =>
      rw [joinSep_cons_cons, joinSep_cons_cons]
      rw [show l ++ ['\r', '\n'] ++ joinSep ['\r', '\n'] (b :: rs) =
        l ++ '\r' :: '\n' :: joinSep ['\r', '\n'] (b :: rs) by simp]
      rw [normCRLF_append_crlf l _ (h l (by simp)), ih (fun x hx => h x (by simp [hx]))]
      simp

lemma mem_joinSep (c : Char) (sep : List Char) (lines : List (List Char))
    (h : c ∈ joinSep sep lines) : c ∈ sep ∨ ∃ l ∈ lines, c ∈ l := by
  induction lines with
  | nil => simp [joinSep] at h
  | cons l rest ih =>
    cases rest with
    | nil =>
      right
      exact ⟨l, by simp, h⟩
    | cons b rs =>
      rw [joinSep_cons_cons] at h
      rcases List.mem_append.1 h with h1 | h1
      · rcases List.mem_append.1 h1 with h2 | h2
        · right; exact ⟨l, by simp, h2⟩
        · left; exact h2
      · rcases ih h1 with h2 | ⟨x, hx, hcx⟩
        · left; exact h2
        · right; exact ⟨x, by simp [hx], hcx⟩

lemma mapCR_no_cr (l : List Char) (h : '\r' ∉ l) : mapCR l = l := by
  induction l with
  | nil => rfl
  | cons c rest ih =>
    have hc : c ≠ '\r' := fun he => h (by simp [he])
    simp only [mapCR, List.map_cons, if_neg hc]
    rw [show List.map (fun c => if c = '\r' then '\n' else c) rest = mapCR rest from rfl,
      ih (fun hm => h (by simp [hm]))]

/-! ### splitOnNl lemmas -/

lemma splitOnNl_ne_nil (l : List Char) : splitOnNl l ≠ [] := by
  induction l with
  | nil => simp [splitOnNl]
  | cons c rest ih =>
    rw [splitOnNl]
    by_cases hc : c = '\n'
    · simp [hc]
    · rw [if_neg hc]
      cases hs : splitOnNl rest with
      | nil => simp [consHead]
      | cons h t => simp [consHead]

lemma consHead_append (c : Char) (A B : List (List Char)) (h : A ≠ []) :
    consHead c (A ++ B) = consHead c A ++ B := by
  cases A with
  | nil => exact absurd rfl h
  | cons a t => rfl

lemma splitOnNl_append (u v : List Char) :
    splitOnNl (u ++ '\n' :: v) = splitOnNl u ++ splitOnNl v := by
  induction u with
  | nil =>
    show splitOnNl ('\n' :: v) = [[]] ++ splitOnNl v
    rw [splitOnNl, if_pos rfl]
    rfl
  | cons c u' ih =>
    show splitOnNl (c :: (u' ++ '\n' :: v)) = splitOnNl (c :: u') ++ splitOnNl v
    rw [splitOnNl, splitOnNl]
    by_cases hc : c = '\n'
    · rw [if_pos hc, if_pos hc, ih]
      rfl
    · rw [if_neg hc, if_neg hc, ih, consHead_append c _ _ (splitOnNl_ne_nil u')]

lemma splitOnNl_no_nl (l : List Char) (h : '\n' ∉ l) : splitOnNl l = [l] := by
  induction l with
  | nil => rfl
  | cons c rest ih =>
    rw [splitOnNl, if_neg (fun he => h (by simp [he])),
      ih (fun hm => h (by simp [hm]))]
    rfl

lemma joinSep_splitOnNl (t : List Char) : joinSep ['\n'] (splitOnNl t) = t := by
  induction t with
  | nil => rfl
  | cons c rest ih =>
    rw [splitOnNl]
    by_cases hc : c = '\n'
    · rw [if_pos hc]
      cases hs : splitOnNl rest with
      | nil => exact absurd hs (splitOnNl_ne_nil rest)
      | cons h t2 =>
        rw [joinSep_cons_cons]
        rw [hs] at ih
        simp [ih, hc]
    · rw [if_neg hc]
      cases hs : splitOnNl rest with
      | nil => exact absurd hs (splitOnNl_ne_nil rest)
      | cons h t2 =>
        rw [hs] at ih
        cases t2 with
        | nil =>
          show joinSep ['\n'] [c :: h] = c :: rest
          show c :: h = c :: rest
          rw [show h = joinSep ['\n'] [h] from rfl, ih]
        | cons h2 t3 =>
          show joinSep ['\n'] ((c :: h) :: h2 :: t3) = c :: rest
          rw [joinSep_cons_cons]
          rw [joinSep_cons_cons] at ih
          simp only [List.cons_append, List.append_assoc] at ih ⊢
          rw [ih]

lemma splitOnNl_first (v : List Char) :
    ∃ h rest2, splitOnNl v = h :: rest2 ∧ '\n' ∉ h ∧
      (v = h ∨ ∃ w, v = h ++ '\n' :: w) := by
  induction v with
  | nil => exact ⟨[], [], rfl, by simp, Or.inl rfl⟩
  | cons c v' ih =>
    by_cases hc : c = '\n'
    · subst hc
      refine ⟨[], splitOnNl v', ?_, by simp, Or.inr ⟨v', rfl⟩⟩
      rw [splitOnNl, if_pos rfl]
    · obtain ⟨h, r2, hs, hnl, hv⟩ := ih
      refine ⟨c :: h, r2, ?_, ?_, ?_⟩
      · rw [splitOnNl, if_neg hc, hs]
        rfl
      · intro hm
        rcases List.mem_cons.1 hm with he | he
        · exact hc he.symm
        · exact hnl he
      · rcases hv with rfl | ⟨w, rfl⟩
        · exact Or.inl rfl
        · exact Or.inr ⟨w, rfl⟩

/-! ### pyStrip lemmas -/

lemma dropWhile_eq_self_of_head (p : Char → Bool) (l : List Char)
    (h : ∀ c, l.head? = some c → p c = false) : l.dropWhile p = l := by
  cases l with
  | nil => rfl
  | cons c rest => rw [List.dropWhile_cons, if_neg (by simp [h c rfl])]

lemma pyStrip_eq_self_ends (l : List Char)
    (hh : ∀ c, l.head? = some c → pySpace c = false)
    (hl : ∀ c, l.getLast? = some c → pySpace c = false) : pyStrip l = l := by
  unfold pyStrip
  rw [dropWhile_eq_self_of_head _ _ hh,
      dropWhile_eq_self_of_head _ _ (fun c hc => hl c (by rwa [List.head?_reverse] at hc)),
      List.reverse_reverse]

lemma length_dropWhile_le (p : Char → Bool) (l : List Char) :
    (l.dropWhile p).length ≤ l.length := by
  induction l with
  | nil => simp
  | cons a rest ih =>
    rw [List.dropWhile_cons]
    by_cases hp : p a
    · rw [if_pos (by simp [hp])]
      simp only [List.length_cons]
      omega
    · rw [if_neg (by simp [hp])]

lemma dropWhile_length_eq (p : Char → Bool) (l : List Char)
    (h : (l.dropWhile p).length = l.length) : l.dropWhile p = l := by
  cases l with
  | nil => rfl
  | cons c rest =>
    by_cases hp : p c
    · rw [List.dropWhile_cons, if_pos (by simp [hp])] at h
      have := length_dropWhile_le p rest
      simp at h
      omega
    · rw [List.dropWhile_cons, if_neg (by simp [hp])]

lemma strip_stable_dropWhile (t : List Char) (h : pyStrip t = t) :
    t.dropWhile pySpace = t := by
  have e := congrArg List.length h
  unfold pyStrip at e
  simp only [List.length_reverse] at e
  have l1 := length_dropWhile_le pySpace (t.dropWhile pySpace).reverse
  simp only [List.length_reverse] at l1
  have l2 := length_dropWhile_le pySpace t
  exact dropWhile_length_eq pySpace t (by omega)

lemma strip_stable_head (t : List Char) (h : pyStrip t = t) :
    ∀ c, t.head? = some c → pySpace c = false := by
  intro c hc
  have hdw := strip_stable_dropWhile t h
  cases t with
  | nil => simp at hc
  | cons a rest =>
    have hac : a = c := by simpa using hc
    subst hac
    by_cases hp : pySpace a
    · rw [List.dropWhile_cons, if_pos (by simp [hp])] at hdw
      have := length_dropWhile_le pySpace rest
      have e := congrArg List.length hdw
      simp at e
      omega
    · simpa using hp

lemma strip_stable_last (t : List Char) (h : pyStrip t = t) :
    ∀ c, t.getLast? = some c → pySpace c = false := by
  intro c hc
  have hdw := strip_stable_dropWhile t h
  have h2 : t.reverse.dropWhile pySpace = t.reverse := by
    have : pyStrip t = (t.reverse.dropWhile pySpace).reverse := by
      unfold pyStrip
      rw [hdw]
    rw [h] at this
    have := congrArg List.reverse this
    simpa using this.symm
  have hh : t.reverse.head? = some c := by rwa [List.head?_reverse]
  cases hr : t.reverse with
  | nil => rw [hr] at hh; simp at hh
  | cons a rest =>
    rw [hr] at hh h2
    have hac : a = c := by simpa using hh
    subst hac
    by_cases hp : pySpace a
    · rw [List.dropWhile_cons, if_pos (by simp [hp])] at h2
      have := length_dropWhile_le pySpace rest
      have e := congrArg List.length h2
      simp at e
      omega
    · simpa using hp

/-! ### goodSeg lemmas -/

lemma goodSeg_tail (c : Char) (t : List Char) (h : goodSeg (c :: t)) : goodSeg t :=
  fun u v huv => h (c :: u) v (by rw [huv]; rfl)

lemma split_nl_cases (a : List Char) (ha : '\n' ∉ a) :
    ∀ (rest u v : List Char), a ++ '\n' :: rest = u ++ '\n' :: v →
      (u = a ∧ v = rest) ∨ ∃ u2, u = a ++ '\n' :: u2 ∧ rest = u2 ++ '\n' :: v := by
  induction a with
  | nil =>
    intro rest u v he
    cases u with
    | nil =>
      simp only [List.nil_append, List.cons.injEq] at he
      exact Or.inl ⟨rfl, he.2.symm⟩
    | cons x u2 =>
      simp only [List.nil_append, List.cons_append, List.cons.injEq] at he
      exact Or.inr ⟨u2, by simp [he.1.symm], he.2⟩
  | cons b a2 ih =>
    intro rest u v he
    cases u with
    | nil =>
      simp only [List.cons_append, List.nil_append, List.cons.injEq] at he
      exact absurd (by simp [he.1]) ha
    | cons x u2 =>
      simp only [List.cons_append, List.cons.injEq] at he
      obtain ⟨rfl, he2⟩ := he
      rcases ih (fun hm => ha (by simp [hm])) rest u2 v he2 with ⟨rfl, rfl⟩ | ⟨u3, rfl, hr⟩
      · exact Or.inl ⟨rfl, rfl⟩
      · exact Or.inr ⟨u3, by simp, hr⟩

lemma goodSeg_append (a rest : List Char) (ha : '\n' ∉ a) (hne : rest ≠ [])
    (hh : ∀ c, rest.head? = some c → pySpace c = false) (hg : goodSeg rest) :
    goodSeg (a ++ '\n' :: rest) := by
  intro u v huv
  rcases split_nl_cases a ha rest u v huv with ⟨hu, hv⟩ | ⟨u2, hu, hrest⟩
  · subst hv
    cases hr : v with
    | nil => exact absurd hr hne
    | cons d z =>
      subst hr
      exact ⟨[], d, z, rfl, by simp, hh d rfl, by simp⟩
  · exact hg u2 v hrest

lemma dropWhile_head_not (p : Char → Bool) (l : List Char) :
    ∀ c, (l.dropWhile p).head? = some c → p c = false := by
  induction l with
  | nil => intro c hc; simp at hc
  | cons a rest ih =>
    intro c hc
    by_cases hp : p a
    · rw [List.dropWhile_cons, if_pos (by simp [hp])] at hc
      exact ih c hc
    · rw [List.dropWhile_cons, if_neg (by simp [hp])] at hc
      simp only [List.head?_cons, Option.some.injEq] at hc
      subst hc
      simpa using hp

lemma exists_span_nonws (l : List Char) (h : ∃ c ∈ l, pySpace c = false) :
    ∃ w d z, l = w ++ d :: z ∧ (∀ x ∈ w, pySpace x = true) ∧ pySpace d = false := by
  have hrest : l.dropWhile pySpace ≠ [] := by
    intro he
    obtain ⟨c, hc, hcw⟩ := h
    have hall : ∀ x ∈ l, pySpace x = true := by
      intro x hx
      have := List.takeWhile_append_dropWhile (p := pySpace) (l := l)
      rw [he, List.append_nil] at this
      rw [← this] at hx
      exact List.mem_takeWhile_imp hx
    rw [hall c hc] at hcw
    simp at hcw
  cases hd : l.dropWhile pySpace with
  | nil => exact absurd hd hrest
  | cons d z =>
    refine ⟨l.takeWhile pySpace, d, z, ?_, fun x hx => List.mem_takeWhile_imp hx, ?_⟩
    · rw [← hd, List.takeWhile_append_dropWhile]
    · exact dropWhile_head_not pySpace l d (by rw [hd]; rfl)

lemma goodSeg_of_goodText (t : List Char) (h : goodText t) : goodSeg t := by
  intro u v huv
  obtain ⟨hne, hstrip, hcr, hlines⟩ := h
  obtain ⟨hline, r2, hs, hnl, hv⟩ := splitOnNl_first v
  have hmem : hline ∈ splitOnNl t := by
    rw [huv, splitOnNl_append, hs]
    exact List.mem_append.2 (Or.inr (by simp))
  obtain ⟨w, d, z, hdecomp, hws, hd⟩ := exists_span_nonws hline (hlines hline hmem)
  have hnw : '\n' ∉ w := fun hm => hnl (by rw [hdecomp]; exact List.mem_append.2 (Or.inl hm))
  rcases hv with rfl | ⟨w2, rfl⟩
  · exact ⟨w, d, z, by rw [hdecomp], hws, hd, hnw⟩
  · exact ⟨w, d, z ++ '\n' :: w2, by rw [hdecomp]; simp, hws, hd, hnw⟩

/-! ### splitBlanks scanning lemmas -/

lemma lastNlIdx_none (l : List Char) (h : '\n' ∉ l) : lastNlIdx l = none := by
  induction l with
  | nil => rfl
  | cons c rest ih =>
    rw [lastNlIdx, ih (fun hm => h (by simp [hm]))]
    rw [if_neg (fun he => h (by simp [he]))]

lemma takeWhile_ws_append (w : List Char) (d : Char) (z : List Char)
    (hw : ∀ x ∈ w, pySpace x = true) (hd : pySpace d = false) :
    (w ++ d :: z).takeWhile pySpace = w := by
  induction w with
  | nil => simp [List.takeWhile_cons, hd]
  | cons x w2 ih =>
    rw [List.cons_append, List.takeWhile_cons, if_pos (hw x (by simp))]
    rw [ih (fun y hy => hw y (by simp [hy]))]

lemma splitBlanksF_good (t : List Char) (hg : goodSeg t) :
    ∀ f, splitBlanksF (f + t.length) t = [t] := by
  induction t with
  | nil => intro f; cases f <;> rfl
  | cons c t2 ih =>
    intro f
    show splitBlanksF (f + (t2.length + 1)) (c :: t2) = [c :: t2]
    rw [show f + (t2.length + 1) = (f + t2.length) + 1 by omega]
    rw [splitBlanksF]
    by_cases hc : c = '\n'
    · subst hc
      rw [if_pos rfl]
      obtain ⟨w, d, z, hdec, hws, hd, hnlw⟩ := hg [] t2 rfl
      rw [hdec, takeWhile_ws_append w d z hws hd, lastNlIdx_none w hnlw, ← hdec]
      rw [ih (goodSeg_tail _ _ hg) f]
      rfl
    · rw [if_neg hc, ih (goodSeg_tail _ _ hg) f]
      rfl

lemma splitBlanksF_sep (t : List Char) (hg : goodSeg t) (r : List Char)
    (hr : ∀ c, r.head? = some c → pySpace c = false) :
    ∀ f, splitBlanksF (f + t.length + 1) (t ++ '\n' :: '\n' :: r) =
      t :: splitBlanksF f r := by
  induction t with
  | nil =>
    intro f
    show splitBlanksF (f + 0 + 1) ('\n' :: '\n' :: r) = [] :: splitBlanksF f r
    rw [show f + 0 + 1 = f + 1 by omega]
    rw [splitBlanksF, if_pos rfl]
    have hrun : ('\n' :: r).takeWhile pySpace = ['\n'] := by
      rw [List.takeWhile_cons, if_pos (by decide)]
      cases r with
      | nil => rfl
      | cons d rs =>
        rw [List.takeWhile_cons, if_neg (by simp [hr d rfl])]
    rw [hrun]
    rw [show lastNlIdx ['\n'] = some 0 from rfl]
    rfl
  | cons c t2 ih =>
    intro f
    show splitBlanksF (f + (t2.length + 1) + 1) (c :: (t2 ++ '\n' :: '\n' :: r)) =
      (c :: t2) :: splitBlanksF f r
    rw [show f + (t2.length + 1) + 1 = (f + t2.length + 1) + 1 by omega]
    rw [splitBlanksF]
    by_cases hc : c = '\n'
    · subst hc
      rw [if_pos rfl]
      obtain ⟨w, d, z, hdec, hws, hd, hnlw⟩ := hg [] t2 rfl
      have harr : (t2 ++ '\n' :: '\n' :: r).takeWhile pySpace = w := by
        rw [hdec, show (w ++ d :: z) ++ '\n' :: '\n' :: r = w ++ d :: (z ++ '\n' :: '\n' :: r) by simp]
        exact takeWhile_ws_append w d _ hws hd
      rw [harr, lastNlIdx_none w hnlw]
      rw [ih (goodSeg_tail _ _ hg) f]
      rfl
    · rw [if_neg hc, ih (goodSeg_tail _ _ hg) f]
      rfl

lemma joinSep_head (sep : List Char) (b : List Char) (rest : List (List Char))
    (hb : b ≠ []) : (joinSep sep (b :: rest)).head? = b.head? := by
  cases rest with
  | nil => rfl
  | cons b2 rs =>
    rw [joinSep_cons_cons]
    cases b with
    | nil => exact absurd rfl hb
    | cons x xs => simp

lemma splitBlanksF_join (blocks : List (List Char))
    (hgood : ∀ b ∈ blocks, goodSeg b ∧ (∀ c, b.head? = some c → pySpace c = false) ∧ b ≠ []) :
    blocks ≠ [] →
    ∀ f, splitBlanksF (f + (joinSep ['\n', '\n'] blocks).length)
      (joinSep ['\n', '\n'] blocks) = blocks := by
  induction blocks with
  | nil => intro h; exact absurd rfl h
  | cons b rest ih =>
    intro _ f
    cases rest with
    | nil => exact splitBlanksF_good b (hgood b (by simp)).1 f
    | cons b2 rs =>
      rw [joinSep_cons_cons]
      rw [show b ++ ['\n', '\n'] ++ joinSep ['\n', '\n'] (b2 :: rs) =
        b ++ '\n' :: '\n' :: joinSep ['\n', '\n'] (b2 :: rs) by simp]
      have hh2 : ∀ c, (joinSep ['\n', '\n'] (b2 :: rs)).head? = some c → pySpace c = false := by
        intro c hc
        rw [joinSep_head _ _ _ (hgood b2 (by simp)).2.2] at hc
        exact (hgood b2 (by simp)).2.1 c hc
      have e : f + (b ++ '\n' :: '\n' :: joinSep ['\n', '\n'] (b2 :: rs)).length =
          ((f + 1) + (joinSep ['\n', '\n'] (b2 :: rs)).length) + b.length + 1 := by
        simp only [List.length_append, List.length_cons]
        omega
      rw [e]
      rw [splitBlanksF_sep b (hgood b (by simp)).1 _ hh2 ((f + 1) + (joinSep ['\n', '\n'] (b2 :: rs)).length)]
      rw [ih (fun x hx => hgood x (by simp [hx])) (by simp) (f + 1)]

/-! ### Character classification of generated lines -/

lemma pad2_all_digit (n : Nat) : ∀ c ∈ pad2 n, c.isDigit = true := by
  intro c hc
  unfold pad2 at hc
  by_cases h : n < 10
  · rw [if_pos h] at hc
    rcases List.mem_cons.1 hc with rfl | hc2
    · decide
    · exact natToDigits_all_digit n c hc2
  · rw [if_neg h] at hc
    exact natToDigits_all_digit n c hc

lemma pad3_all_digit (n : Nat) : ∀ c ∈ pad3 n, c.isDigit = true := by
  intro c hc
  unfold pad3 at hc
  by_cases h : n < 10
  · rw [if_pos h] at hc
    rcases List.mem_cons.1 hc with rfl | hc2
    · decide
    · rcases List.mem_cons.1 hc2 with rfl | hc3
      · decide
      · exact natToDigits_all_digit n c hc3
  · rw [if_neg h] at hc
    by_cases h2 : n < 100
    · rw [if_pos h2] at hc
      rcases List.mem_cons.1 hc with rfl | hc2
      · decide
      · exact natToDigits_all_digit n c hc2
    · rw [if_neg h2] at hc
      exact natToDigits_all_digit n c hc

lemma format_chars (ms : Nat) :
    ∀ c ∈ format_timestamp ms, c.isDigit = true ∨ c = ':' ∨ c = ',' := by
  intro c hc
  simp only [format_timestamp, List.mem_append, List.mem_cons] at hc
  rcases hc with ((h | (rfl | h)) | (rfl | h)) | (rfl | h)
  · exact Or.inl (pad2_all_digit _ c h)
  · exact Or.inr (Or.inl rfl)
  · exact Or.inl (pad2_all_digit _ c h)
  · exact Or.inr (Or.inl rfl)
  · exact Or.inl (pad2_all_digit _ c h)
  · exact Or.inr (Or.inr rfl)
  · exact Or.inl (pad3_all_digit _ c h)

lemma format_non_ws (ms : Nat) : ∀ c ∈ format_timestamp ms, pySpace c = false := by
  intro c hc
  rcases format_chars ms c hc with h | rfl | rfl
  · exact pySpace_of_digit c h
  · decide
  · decide

lemma format_ne_dash (ms : Nat) : ∀ c ∈ format_timestamp ms, c ≠ '-' := by
  intro c hc
  rcases format_chars ms c hc with h | rfl | rfl
  · exact digit_ne c h '-' (by left; decide)
  · decide
  · decide

lemma format_ne_nl (ms : Nat) : ∀ c ∈ format_timestamp ms, c ≠ '\n' := by
  intro c hc
  rcases format_chars ms c hc with h | rfl | rfl
  · exact digit_ne c h '\n' (by left; decide)
  · decide
  · decide

lemma format_ne_cr (ms : Nat) : ∀ c ∈ format_timestamp ms, c ≠ '\r' := by
  intro c hc
  rcases format_chars ms c hc with h | rfl | rfl
  · exact digit_ne c h '\r' (by left; decide)
  · decide
  · decide

lemma format_ne_nil (ms : Nat) : format_timestamp ms ≠ [] := by
  unfold format_timestamp
  intro h
  rcases List.append_eq_nil.1 h with ⟨h1, h2⟩
  simp at h2

lemma pad2_ne_nil (n : Nat) : pad2 n ≠ [] := by
  unfold pad2
  by_cases h : n < 10
  · rw [if_pos h]; simp
  · rw [if_neg h]; exact natToDigits_ne_nil n

lemma tsLine_no_nl (c : Cue) : '\n' ∉ tsLine c := by
  intro hm
  unfold tsLine at hm
  rcases List.mem_append.1 hm with h | h
  · exact format_ne_nl _ _ h rfl
  · simp only [List.mem_cons] at h
    rcases h with he | he | he | he | he | h2
    · exact absurd he (by decide)
    · exact absurd he (by decide)
    · exact absurd he (by decide)
    · exact absurd he (by decide)
    · exact absurd he (by decide)
    · exact format_ne_nl _ _ h2 rfl

lemma tsLine_no_cr (c : Cue) : '\r' ∉ tsLine c := by
  intro hm
  unfold tsLine at hm
  rcases List.mem_append.1 hm with h | h
  · exact format_ne_cr _ _ h rfl
  · simp only [List.mem_cons] at h
    rcases h with he | he | he | he | he | h2
    · exact absurd he (by decide)
    · exact absurd he (by decide)
    · exact absurd he (by decide)
    · exact absurd he (by decide)
    · exact absurd he (by decide)
    · exact format_ne_cr _ _ h2 rfl

lemma natToDigits_no_nl (n : Nat) : '\n' ∉ natToDigits n := by
  intro hm
  exact digit_ne _ (natToDigits_all_digit n _ hm) '\n' (by left; decide) rfl

lemma natToDigits_no_cr (n : Nat) : '\r' ∉ natToDigits n := by
  intro hm
  exact digit_ne _ (natToDigits_all_digit n _ hm) '\r' (by left; decide) rfl

lemma natToDigits_non_ws (n : Nat) : ∀ c ∈ natToDigits n, pySpace c = false :=
  fun c hc => pySpace_of_digit c (natToDigits_all_digit n c hc)

/-! ### Index line and timing line parsing -/

lemma pyInt_natToDigits (i : Nat) : pyInt (natToDigits i) = some (i : Int) := by
  unfold pyInt
  rw [pyStrip_eq_self_of_all _ (natToDigits_non_ws i)]
  cases hnd : natToDigits i with
  | nil => exact absurd hnd (natToDigits_ne_nil i)
  | cons hd tl =>
    have hdig : hd.isDigit = true := natToDigits_all_digit i hd (by rw [hnd]; simp)
    show (if hd = '+' then
        if (!tl.isEmpty && tl.all Char.isDigit) = true then
          some ((digitsVal tl : Nat) : Int) else none
      else if hd = '-' then
        if (!tl.isEmpty && tl.all Char.isDigit) = true then
          some (-((digitsVal tl : Nat) : Int)) else none
      else if (hd :: tl).all Char.isDigit = true then
        some ((digitsVal (hd :: tl) : Nat) : Int) else none) = some (i : Int)
    rw [if_neg (digit_ne hd hdig '+' (by left; decide)),
        if_neg (digit_ne hd hdig '-' (by left; decide))]
    rw [if_pos]
    · rw [← hnd, digitsVal_natToDigits]
    · rw [← hnd]
      rw [List.all_eq_true]
      intro x hx
      exact natToDigits_all_digit i x hx

lemma takeWhile_eq_self_of_all (p : Char → Bool) (l : List Char)
    (h : ∀ x ∈ l, p x = true) : l.takeWhile p = l := by
  induction l with
  | nil => rfl
  | cons c rest ih =>
    rw [List.takeWhile_cons, if_pos (h c (by simp)), ih (fun x hx => h x (by simp [hx]))]

lemma matchGroup2_space_post (post : List Char) (hne : post ≠ [])
    (hpost : ∀ x ∈ post, pySpace x = false) : matchGroup2 (' ' :: post) = some post := by
  cases post with
  | nil => exact absurd rfl hne
  | cons d ds =>
    have h1 : (' ' :: d :: ds).dropWhile pySpace = d :: ds := by
      rw [List.dropWhile_cons, if_pos (by decide), List.dropWhile_cons,
        if_neg (by simp [hpost d (by simp)])]
    have h2 : matchGroup2 (' ' :: d :: ds) =
        match List.dropWhile pySpace (' ' :: d :: ds) with
        | [] => some [(d :: ds).getLastD ' ']
        | e :: es => some (List.takeWhile (fun x => !pySpace x) (e :: es)) := rfl
    rw [h2, h1]
    show some ((d :: ds).takeWhile (fun x => !pySpace x)) = some (d :: ds)
    rw [takeWhile_eq_self_of_all _ _ (fun x hx => by simp [hpost x hx])]

lemma arrowTail_none_of (c : Char) (l : List Char) (hws : pySpace c = false)
    (hc : c ≠ '-') : arrowTail (c :: l) = none := by
  have h2 : arrowTail (c :: l) =
      match List.dropWhile pySpace (c :: l) with
      | [] => none
      | a :: rest1 =>
        if a = '-' then
          match rest1 with
          | [] => none
          | b :: rest2 =>
            if b = '-' then
              match rest2 with
              | [] => none
              | e :: rest3 => if e = '>' then some rest3 else none
            else none
        else none := rfl
  rw [h2, List.dropWhile_cons, if_neg (by simp [hws])]
  show (if c = '-' then _ else none) = none
  rw [if_neg hc]

lemma arrowTail_arrow (post : List Char) :
    arrowTail (' ' :: '-' :: '-' :: '>' :: post) = some post := by
  unfold arrowTail
  rw [List.dropWhile_cons, if_pos (by decide)]
  rw [List.dropWhile_cons, if_neg (by decide)]
  simp

lemma scanPasses (post : List Char) (hpostne : post ≠ [])
    (hpost : ∀ x ∈ post, pySpace x = false) :
    ∀ mid, mid ≠ [] → (∀ x ∈ mid, pySpace x = false ∧ x ≠ '-') →
    ∀ acc, matchTimingGo acc (mid ++ ' ' :: '-' :: '-' :: '>' :: ' ' :: post) =
      some (acc ++ mid, post) := by
  intro mid
  induction mid with
  | nil => intro h; exact absurd rfl h
  | cons m mid2 ih =>
    intro _ hmid acc
    cases mid2 with
    | nil =>
      show matchTimingGo acc (m :: ' ' :: '-' :: '-' :: '>' :: ' ' :: post) = _
      rw [matchTimingGo]
      rw [arrowTail_arrow (' ' :: post)]
      show (match matchGroup2 (' ' :: post) with
        | some g2 => some (acc ++ [m], g2)
        | none => matchTimingGo (acc ++ [m]) (' ' :: '-' :: '-' :: '>' :: ' ' :: post)) = _
      rw [matchGroup2_space_post post hpostne hpost]
    | cons m2 mid3 =>
      show matchTimingGo acc (m :: ((m2 :: mid3) ++ ' ' :: '-' :: '-' :: '>' :: ' ' :: post)) = _
      rw [matchTimingGo]
      rw [show (m2 :: mid3) ++ ' ' :: '-' :: '-' :: '>' :: ' ' :: post =
        m2 :: (mid3 ++ ' ' :: '-' :: '-' :: '>' :: ' ' :: post) from rfl]
      rw [arrowTail_none_of m2 _ (hmid m2 (by simp)).1 (hmid m2 (by simp)).2]
      show matchTimingGo (acc ++ [m]) (m2 :: (mid3 ++ ' ' :: '-' :: '-' :: '>' :: ' ' :: post)) = _
      rw [show m2 :: (mid3 ++ ' ' :: '-' :: '-' :: '>' :: ' ' :: post) =
        (m2 :: mid3) ++ ' ' :: '-' :: '-' :: '>' :: ' ' :: post from rfl]
      rw [ih (by simp) (fun x hx => hmid x (by simp [hx])) (acc ++ [m])]
      simp

lemma matchTimingLine_tsLine (c : Cue) :
    matchTimingLine (tsLine c) =
      some (format_timestamp c.start_time, format_timestamp c.end_time) := by
  unfold matchTimingLine tsLine
  rw [scanPasses (format_timestamp c.end_time) (format_ne_nil _) (format_non_ws _)
    (format_timestamp c.start_time) (format_ne_nil _)
    (fun x hx => ⟨format_non_ws _ x hx, format_ne_dash _ x hx⟩) []]
  simp

lemma tsLine_strip (c : Cue) : pyStrip (tsLine c) = tsLine c := by
  apply pyStrip_eq_self_ends
  · intro x hx
    unfold tsLine at hx
    rw [List.head?_append_of_ne_nil _ (format_ne_nil _)] at hx
    exact format_non_ws _ x (List.mem_of_mem_head? hx)
  · intro x hx
    unfold tsLine at hx
    rw [List.getLast?_append_of_ne_nil _ (by simp)] at hx
    rw [show (' ' :: '-' :: '-' :: '>' :: ' ' :: format_timestamp c.end_time) =
      [' ', '-', '-', '>', ' '] ++ format_timestamp c.end_time by simp] at hx
    rw [List.getLast?_append_of_ne_nil _ (format_ne_nil _)] at hx
    exact format_non_ws _ x (List.mem_of_mem_getLast? hx)

lemma parseBlock_blockOf (i : Nat) (c : Cue) (h : goodText c.text)
    (hst : c.start_time < 360000000) (hen : c.end_time < 360000000) :
    parseBlock (blockOf i c) =
      some { index := (i : Int), start_time := c.start_time, end_time := c.end_time,
             text := c.text, translated_text := none } := by
  obtain ⟨hne, hstrip, hcr, hlns⟩ := h
  have hhead : ∀ x, (blockOf i c).head? = some x → pySpace x = false := by
    intro x hx
    unfold blockOf at hx
    rw [List.head?_append_of_ne_nil _ (natToDigits_ne_nil i)] at hx
    exact natToDigits_non_ws i x (List.mem_of_mem_head? hx)
  have hlast : ∀ x, (blockOf i c).getLast? = some x → pySpace x = false := by
    intro x hx
    unfold blockOf at hx
    rw [List.getLast?_append_of_ne_nil _ (by simp)] at hx
    rw [show ('\n' :: (tsLine c ++ '\n' :: c.text)) =
      ('\n' :: tsLine c) ++ '\n' :: c.text by simp] at hx
    rw [List.getLast?_append_of_ne_nil _ (by simp)] at hx
    rw [show ('\n' :: c.text) = ['\n'] ++ c.text by simp] at hx
    rw [List.getLast?_append_of_ne_nil _ hne] at hx
    exact strip_stable_last c.text hstrip x hx
  have hblockstrip : pyStrip (blockOf i c) = blockOf i c :=
    pyStrip_eq_self_ends _ hhead hlast
  have hblockne : blockOf i c ≠ [] := by
    unfold blockOf
    intro he
    rcases List.append_eq_nil.1 he with ⟨h1, _⟩
    exact natToDigits_ne_nil i h1
  have hlines_eq : splitOnNl (blockOf i c) =
      natToDigits i :: tsLine c :: splitOnNl c.text := by
    unfold blockOf
    rw [splitOnNl_append, splitOnNl_no_nl _ (natToDigits_no_nl i),
        splitOnNl_append, splitOnNl_no_nl _ (tsLine_no_nl c)]
    rfl
  have hTne := splitOnNl_ne_nil c.text
  unfold parseBlock
  rw [hblockstrip, hlines_eq]
  rw [if_neg (by simp [List.isEmpty_iff, hblockne])]
  rw [if_neg (by
    have : 0 < (splitOnNl c.text).length := List.length_pos.2 hTne
    simp only [List.length_cons]
    omega)]
  rw [show (natToDigits i :: tsLine c :: splitOnNl c.text).headD ([] : List Char) =
    natToDigits i from rfl]
  rw [show ((natToDigits i :: tsLine c :: splitOnNl c.text).drop 1).headD ([] : List Char) =
    tsLine c from rfl]
  rw [show (natToDigits i :: tsLine c :: splitOnNl c.text).drop 2 =
    splitOnNl c.text from rfl]
  rw [pyStrip_eq_self_of_all _ (natToDigits_non_ws i), pyInt_natToDigits i]
  show (match matchTimingLine (pyStrip (tsLine c)) with
    | none => none
    | some (g1, g2) =>
      match parse_timestamp g1, parse_timestamp g2 with
      | some st, some en =>
        some (Cue.mk ((i : Nat) : Int) st en
          (pyStrip (joinSep ['\n'] (splitOnNl c.text))) none)
      | _, _ => none) = _
  rw [tsLine_strip c, matchTimingLine_tsLine c]
  show (match parse_timestamp (format_timestamp c.start_time),
            parse_timestamp (format_timestamp c.end_time) with
    | some st, some en =>
      some (Cue.mk ((i : Nat) : Int) st en
        (pyStrip (joinSep ['\n'] (splitOnNl c.text))) none)
    | _, _ => none) = _
  rw [parse_format _ hst, parse_format _ hen]
  show some (Cue.mk ((i : Nat) : Int) c.start_time c.end_time
      (pyStrip (joinSep ['\n'] (splitOnNl c.text))) none) =
    some (Cue.mk (i : Int) c.start_time c.end_time c.text none)
  rw [joinSep_splitOnNl, hstrip]

/-! ### Generated document structure -/

lemma chooseText_false (c : Cue) : chooseText false c = c.text := by
  unfold chooseText
  cases c.translated_text <;> simp

lemma joinSep_cons_ne_nil (sep : List Char) (l : List Char) (rest : List (List Char))
    (h : rest ≠ []) : joinSep sep (l :: rest) = l ++ sep ++ joinSep sep rest := by
  cases rest with
  | nil => exact absurd rfl h
  | cons b rs => rfl

lemma blockOf_head_non_ws (i : Nat) (c : Cue) :
    ∀ x, (blockOf i c).head? = some x → pySpace x = false := by
  intro x hx
  unfold blockOf at hx
  rw [List.head?_append_of_ne_nil _ (natToDigits_ne_nil i)] at hx
  exact natToDigits_non_ws i x (List.mem_of_mem_head? hx)

lemma blockOf_last_non_ws (i : Nat) (c : Cue) (hne : c.text ≠ [])
    (hstrip : pyStrip c.text = c.text) :
    ∀ x, (blockOf i c).getLast? = some x → pySpace x = false := by
  intro x hx
  unfold blockOf at hx
  rw [List.getLast?_append_of_ne_nil _ (by simp)] at hx
  rw [show ('\n' :: (tsLine c ++ '\n' :: c.text)) =
    ('\n' :: tsLine c) ++ '\n' :: c.text by simp] at hx
  rw [List.getLast?_append_of_ne_nil _ (by simp)] at hx
  rw [show ('\n' :: c.text) = ['\n'] ++ c.text by simp] at hx
  rw [List.getLast?_append_of_ne_nil _ hne] at hx
  exact strip_stable_last c.text hstrip x hx

lemma blockOf_ne_nil (i : Nat) (c : Cue) : blockOf i c ≠ [] := by
  unfold blockOf
  intro he
  rcases List.append_eq_nil.1 he with ⟨h1, _⟩
  exact natToDigits_ne_nil i h1

lemma tsLine_ne_nil (c : Cue) : tsLine c ≠ [] := by
  unfold tsLine
  intro he
  rcases List.append_eq_nil.1 he with ⟨h1, _⟩
  exact format_ne_nil _ h1

lemma goodSeg_blockOf (i : Nat) (c : Cue) (h : goodText c.text) :
    goodSeg (blockOf i c) := by
  obtain ⟨hne, hstrip, hcr, hlns⟩ := h
  unfold blockOf
  apply goodSeg_append _ _ (natToDigits_no_nl i)
  · intro he
    rcases List.append_eq_nil.1 he with ⟨h1, _⟩
    exact tsLine_ne_nil c h1
  · intro x hx
    rw [List.head?_append_of_ne_nil _ (tsLine_ne_nil c)] at hx
    unfold tsLine at hx
    rw [List.head?_append_of_ne_nil _ (format_ne_nil _)] at hx
    exact format_non_ws _ x (List.mem_of_mem_head? hx)
  · apply goodSeg_append _ _ (tsLine_no_nl c) hne
    · exact strip_stable_head c.text hstrip
    · exact goodSeg_of_goodText c.text ⟨hne, hstrip, hcr, hlns⟩

lemma genBlocks_good (cues : List Cue)
    (h : ∀ c ∈ cues, goodText c.text) :
    ∀ i, ∀ b ∈ genBlocks i cues,
      goodSeg b ∧ (∀ x, b.head? = some x → pySpace x = false) ∧ b ≠ [] := by
  induction cues with
  | nil => intro i b hb; simp [genBlocks] at hb
  | cons c rest ih =>
    intro i b hb
    rcases List.mem_cons.1 hb with rfl | hb2
    · exact ⟨goodSeg_blockOf i c (h c (by simp)), blockOf_head_non_ws i c,
        blockOf_ne_nil i c⟩
    · exact ih (fun x hx => h x (by simp [hx])) (i + 1) b hb2

lemma genBlocks_no_cr (cues : List Cue) (h : ∀ c ∈ cues, goodText c.text) :
    ∀ i, ∀ l ∈ genLines false i cues, '\r' ∉ l := by
  induction cues with
  | nil => intro i l hl; simp [genLines] at hl
  | cons c rest ih =>
    intro i l hl
    rcases List.mem_cons.1 hl with rfl | hl2
    · exact natToDigits_no_cr i
    · rcases List.mem_cons.1 hl2 with rfl | hl3
      · exact tsLine_no_cr c
      · rcases List.mem_cons.1 hl3 with rfl | hl4
        · rw [chooseText_false]
          exact (h c (by simp)).2.2.1
        · rcases List.mem_cons.1 hl4 with rfl | hl5
          · simp
          · exact ih (fun x hx => h x (by simp [hx])) (i + 1) l hl5

lemma joinSep_genLines (cues : List Cue) :
    ∀ i, cues ≠ [] →
      joinSep ['\n'] (genLines false i cues) =
        joinSep ['\n', '\n'] (genBlocks i cues) ++ ['\n'] := by
  induction cues with
  | nil => intro i h; exact absurd rfl h
  | cons c rest ih =>
    intro i _
    cases rest with
    | nil =>
      show joinSep ['\n'] [natToDigits i, tsLine c, chooseText false c, []] = _
      rw [joinSep_cons_ne_nil _ _ _ (by simp), joinSep_cons_ne_nil _ _ _ (by simp),
        joinSep_cons_ne_nil _ _ _ (by simp),
        show joinSep ['\n'] [([] : List Char)] = [] from rfl]
      show _ = joinSep ['\n', '\n'] [blockOf i c] ++ ['\n']
      show _ = blockOf i c ++ ['\n']
      rw [chooseText_false]
      unfold blockOf
      simp [List.append_assoc]
    | cons c2 rs =>
      show joinSep ['\n'] (natToDigits i :: tsLine c :: chooseText false c :: [] ::
        genLines false (i + 1) (c2 :: rs)) = _
      rw [joinSep_cons_ne_nil _ _ _ (by simp), joinSep_cons_ne_nil _ _ _ (by simp),
        joinSep_cons_ne_nil _ _ _ (by simp),
        joinSep_cons_ne_nil _ _ _ (by simp [genLines])]
      rw [ih (i + 1) (by simp)]
      show _ = joinSep ['\n', '\n'] (blockOf i c :: genBlocks (i + 1) (c2 :: rs)) ++ ['\n']
      rw [joinSep_cons_ne_nil _ _ _ (by simp [genBlocks])]
      rw [chooseText_false]
      unfold blockOf
      simp [List.append_assoc]

lemma pyStrip_concat_nl (l : List Char) (hne : l ≠ [])
    (hh : ∀ x, l.head? = some x → pySpace x = false)
    (hl : ∀ x, l.getLast? = some x → pySpace x = false) :
    pyStrip (l ++ ['\n']) = l := by
  unfold pyStrip
  have h1 : (l ++ ['\n']).dropWhile pySpace = l ++ ['\n'] := by
    apply dropWhile_eq_self_of_head
    intro x hx
    rw [List.head?_append_of_ne_nil _ hne] at hx
    exact hh x hx
  rw [h1, List.reverse_concat]
  rw [List.dropWhile_cons, if_pos (by decide)]
  rw [dropWhile_eq_self_of_head _ _
    (fun x hx => hl x (by rwa [List.head?_reverse] at hx))]
  exact List.reverse_reverse l

lemma joinSep_ne_nil (sep : List Char) (b : List Char) (rest : List (List Char))
    (hb : b ≠ []) : joinSep sep (b :: rest) ≠ [] := by
  cases rest with
  | nil => exact hb
  | cons b2 rs =>
    rw [joinSep_cons_ne_nil _ _ _ (by simp)]
    simp [hb]

lemma joinSep_getLast_mem (sep : List Char) :
    ∀ (blocks : List (List Char)), blocks ≠ [] → (∀ b ∈ blocks, b ≠ []) →
    ∀ x, (joinSep sep blocks).getLast? = some x → ∃ b ∈ blocks, b.getLast? = some x := by
  intro blocks
  induction blocks with
  | nil => intro h; exact absurd rfl h
  | cons b rest ih =>
    intro _ hne x hx
    cases rest with
    | nil => exact ⟨b, by simp, hx⟩
    | cons b2 rs =>
      rw [joinSep_cons_ne_nil _ _ _ (by simp)] at hx
      rw [List.append_assoc] at hx
      rw [List.getLast?_append_of_ne_nil _
        (by
          intro he
          rcases List.append_eq_nil.1 he with ⟨_, h2⟩
          exact joinSep_ne_nil sep b2 rs (hne b2 (by simp)) h2)] at hx
      rw [List.getLast?_append_of_ne_nil _
        (joinSep_ne_nil sep b2 rs (hne b2 (by simp)))] at hx
      obtain ⟨bb, hbb, hbx⟩ := ih (by simp) (fun y hy => hne y (by simp [hy])) x hx
      exact ⟨bb, by simp [hbb], hbx⟩

lemma filterMap_genBlocks (cues : List Cue)
    (h : ∀ c ∈ cues, goodText c.text ∧ c.start_time < 360000000 ∧
      c.end_time < 360000000) :
    ∀ i, (genBlocks i cues).filterMap parseBlock = renumberFrom i cues := by
  induction cues with
  | nil => intro i; rfl
  | cons c rest ih =>
    intro i
    show (blockOf i c :: genBlocks (i + 1) rest).filterMap parseBlock = _
    rw [List.filterMap_cons]
    rw [parseBlock_blockOf i c (h c (by simp)).1 (h c (by simp)).2.1 (h c (by simp)).2.2]
    rw [ih (fun x hx => h x (by simp [hx])) (i + 1)]
    rfl

lemma parse_generate (cues : List Cue)
    (h : ∀ c ∈ cues, goodText c.text ∧ c.start_time < 360000000 ∧
      c.end_time < 360000000) :
    parse_srt (generate_srt cues false) = renumberFrom 1 cues := by
  cases cues with
  | nil => decide
  | cons c0 rest =>
    have hgt : ∀ c ∈ c0 :: rest, goodText c.text := fun c hc => (h c hc).1
    have hnocr := genBlocks_no_cr (c0 :: rest) hgt 1
    -- step 1: newline normalization
    have s1 : normCRLF (generate_srt (c0 :: rest) false) =
        bomChar :: joinSep ['\n'] (genLines false 1 (c0 :: rest)) := by
      unfold generate_srt
      rw [normCRLF_cons_ne_cr _ _ (by decide), normCRLF_join _ hnocr]
    -- step 2: lone CR replacement is the identity here
    have s2 : mapCR (bomChar :: joinSep ['\n'] (genLines false 1 (c0 :: rest))) =
        bomChar :: joinSep ['\n'] (genLines false 1 (c0 :: rest)) := by
      apply mapCR_no_cr
      intro hm
      rcases List.mem_cons.1 hm with he | hm2
      · exact absurd he (by decide)
      · rcases mem_joinSep _ _ _ hm2 with hs | ⟨l, hl, hcl⟩
        · simp at hs
        · exact hnocr l hl hcl
    -- step 3: BOM removal
    have s3 : stripBom (bomChar :: joinSep ['\n'] (genLines false 1 (c0 :: rest))) =
        joinSep ['\n'] (genLines false 1 (c0 :: rest)) := by
      simp [stripBom]
    -- step 4: outer strip removes exactly the trailing newline
    have hjb_ne : joinSep ['\n', '\n'] (genBlocks 1 (c0 :: rest)) ≠ [] := by
      show joinSep ['\n', '\n'] (blockOf 1 c0 :: genBlocks 2 rest) ≠ []
      exact joinSep_ne_nil _ _ _ (blockOf_ne_nil 1 c0)
    have hgood := genBlocks_good (c0 :: rest) hgt 1
    have hjb_head : ∀ x, (joinSep ['\n', '\n'] (genBlocks 1 (c0 :: rest))).head? = some x →
        pySpace x = false := by
      intro x hx
      rw [show genBlocks 1 (c0 :: rest) = blockOf 1 c0 :: genBlocks 2 rest from rfl] at hx
      rw [joinSep_head _ _ _ (blockOf_ne_nil 1 c0)] at hx
      exact blockOf_head_non_ws 1 c0 x hx
    have hjb_last : ∀ x, (joinSep ['\n', '\n'] (genBlocks 1 (c0 :: rest))).getLast? = some x →
        pySpace x = false := by
      intro x hx
      obtain ⟨b, hb, hbx⟩ := joinSep_getLast_mem ['\n', '\n'] (genBlocks 1 (c0 :: rest))
        (by simp [genBlocks]) (fun b hb => (hgood b hb).2.2) x hx
      -- b is a generated block: recover its cue to apply blockOf_last_non_ws
      clear hx
      revert hb
      -- prove by induction over the block list
      suffices hsuf : ∀ (cs : List Cue) (j : Nat), (∀ c ∈ cs, goodText c.text) →
          b ∈ genBlocks j cs → pySpace x = false by
        intro hb
        exact hsuf (c0 :: rest) 1 hgt hb
      intro cs
      induction cs with
      | nil => intro j _ hb; simp [genBlocks] at hb
      | cons cc rr ihc =>
        intro j hgt2 hb
        rcases List.mem_cons.1 hb with rfl | hb2
        · exact blockOf_last_non_ws j cc (hgt2 cc (by simp)).1
            (hgt2 cc (by simp)).2.1 x hbx
        · exact ihc (j + 1) (fun y hy => hgt2 y (by simp [hy])) hb2
    have s4 : pyStrip (joinSep ['\n'] (genLines false 1 (c0 :: rest))) =
        joinSep ['\n', '\n'] (genBlocks 1 (c0 :: rest)) := by
      rw [joinSep_genLines (c0 :: rest) 1 (by simp)]
      exact pyStrip_concat_nl _ hjb_ne hjb_head hjb_last
    -- step 5: block split
    have s5 : splitBlanks (joinSep ['\n', '\n'] (genBlocks 1 (c0 :: rest))) =
        genBlocks 1 (c0 :: rest) := by
      unfold splitBlanks
      rw [show (joinSep ['\n', '\n'] (genBlocks 1 (c0 :: rest))).length =
        0 + (joinSep ['\n', '\n'] (genBlocks 1 (c0 :: rest))).length by omega]
      exact splitBlanksF_join (genBlocks 1 (c0 :: rest)) hgood (by simp [genBlocks]) 0
    -- assemble
    unfold parse_srt prepContent
    rw [s1, s2, s3, s4, s5]
    rw [foldl_parse_filterMap]
    rw [filterMap_genBlocks (c0 :: rest) h 1]
    rfl

lemma renumberFrom_map_triple (cues : List Cue) :
    ∀ i, (renumberFrom i cues).map (fun c => (c.start_time, c.end_time, c.text)) =
      cues.map (fun c => (c.start_time, c.end_time, c.text)) := by
  induction cues with
  | nil => intro i; rfl
  | cons c rest ih =>
    intro i
    show (c.start_time, c.end_time, c.text) ::
      (renumberFrom (i + 1) rest).map (fun c => (c.start_time, c.end_time, c.text)) = _
    rw [ih (i + 1)]
    rfl

lemma renumberFrom_length (cues : List Cue) :
    ∀ i, (renumberFrom i cues).length = cues.length := by
  induction cues with
  | nil => intro i; rfl
  | cons c rest ih =>
    intro i
    show (renumberFrom (i + 1) rest).length + 1 = rest.length + 1
    rw [ih (i + 1)]

lemma renumberFrom_index (cues : List Cue) :
    ∀ i, (renumberFrom i cues).map Cue.index =
      List.map (fun k : Nat => ((k : Int) + (i : Int))) (List.range cues.length) := by
  induction cues with
  | nil => intro i; rfl
  | cons c rest ih =>
    intro i
    show ((i : Nat) : Int) :: (renumberFrom (i + 1) rest).map Cue.index = _
    rw [ih (i + 1)]
    show _ = List.map (fun k : Nat => ((k : Int) + (i : Int))) (List.range (rest.length + 1))
    rw [List.range_succ_eq_map]
    simp only [List.map_cons, List.map_map]
    congr 1
    · push_cast
      ring
    · apply List.map_congr_left
      intro k hk
      simp only [Function.comp_apply]
      push_cast
      ring

/-- C1 (amended theorem): for cues whose text is non-empty, stripped (no
leading/trailing whitespace), free of carriage returns and of
whitespace-only lines, and whose times are below 100 hours (so the hour
field fits the two-digit timestamp format), parsing the serialization
with `use_translated = false` yields a cue sequence of the same length
with identical `start_time`/`end_time`/`text` in the same order, the
indices renumbered `1..N`. -/
theorem c1_round_trip (cues : List Cue)
    (h : ∀ c ∈ cues, goodText c.text ∧ c.start_time ≤ c.end_time ∧
      c.start_time < 360000000 ∧ c.end_time < 360000000) :
    (parse_srt (generate_srt cues false)).map
        (fun c => (c.start_time, c.end_time, c.text)) =
      cues.map (fun c => (c.start_time, c.end_time, c.text)) ∧
    (parse_srt (generate_srt cues false)).length = cues.length ∧
    (parse_srt (generate_srt cues false)).map Cue.index =
      List.map (fun k : Nat => ((k : Int) + 1)) (List.range cues.length) := by
  have heq := parse_generate cues
    (fun c hc => ⟨(h c hc).1, (h c hc).2.2.1, (h c hc).2.2.2⟩)
  rw [heq]
  refine ⟨renumberFrom_map_triple cues 1, renumberFrom_length cues 1, ?_⟩
  rw [renumberFrom_index cues 1]
  simp

/-- C1 (counterexample): the claim as stated — over every cue list with
non-negative `start_time ≤ end_time` and non-empty text — is false: a cue
whose text carries leading whitespace (here `" a"`) does not survive the
round trip, because `parse_srt` strips each block's text. -/
theorem c1_counterexample :
    (0 : Nat) ≤ (1000 : Nat) ∧ [' ', 'a'] ≠ ([] : List Char) ∧
    (parse_srt (generate_srt [Cue.mk 1 0 1000 [' ', 'a'] none] false)).map Cue.text ≠
      [[' ', 'a']] := by
  refine ⟨by decide, by decide, ?_⟩
  decide

/-- Witness for C1 at a concrete input. -/
theorem c1_round_trip_witness :
    (parse_srt (generate_srt [Cue.mk 5 62345 63000 "Hi".data none] false)).map
        (fun c => (c.start_time, c.end_time, c.text)) =
      [(62345, 63000, "Hi".data)] :=
  ((c1_round_trip [Cue.mk 5 62345 63000 "Hi".data none] (by decide)).1).trans (by decide)

end SrtTranslator
